import Mathlib

/-!
Verification of the weave graph-compilation core: the remote-query (GQL)
translation pass in `weave/compile_domain.py`, together with the pieces of
its collaborators (`graph`, `stitch`, the op registry, `weave_types`) that
the pass depends on.  Definitions are shallow embeddings of the Python
source; collaborators whose source is not available are modelled from the
specification and marked as such in their doc comments.
-/

set_option maxHeartbeats 1000000

namespace Weave

/-- Weave types, from the spec's data model (`weave_types` source is not
available).  Modelled from the spec: the structural type lattice of §3 —
`Any`, `None`, `Invalid`, `Boolean`, `Int`/`Float`/`Number`, `String`,
`Type`, `List<T>`, `TypedDict`, `Union`, plus `Unknown` (used for empty
containers, as in the repository's tests). -/
inductive WType where
  | any
  | noneType
  | invalid
  | boolean
  | int
  | float
  | number
  | string
  | type
  | unknown
  | list (elem : WType)
  | typedDict (props : List (String × WType))
  | union (members : List WType)
  deriving Repr

/-- Python runtime values that appear as constants in the graph.  Modelled
from the spec: constant nodes carry literal values (§3); the translation
pass stores a query string and a weave type as constants. -/
inductive PyVal where
  | str (s : String)
  | int (n : Int)
  | bool (b : Bool)
  | none
  | type (t : WType)
  | list (elems : List PyVal)
  | dict (entries : List (String × PyVal))
  deriving Repr

/-- Graph nodes.  Modelled from the spec (§3, `graph` source is not
available): `ConstNode{type, value}`, `VarNode{type, name}`,
`OutputNode{type, op_name, inputs}` with ordered named inputs. -/
inductive Node where
  | const (t : WType) (val : PyVal)
  | var (t : WType) (name : String)
  | output (t : WType) (opName : String) (inputs : List (String × Node))
  deriving Repr

/-- The declared type of a node (`node.type` in the source). -/
def Node.wtype : Node → WType
  | .const t _ => t
  | .var t _ => t
  | .output t _ _ => t

mutual

/-- Structural equality on weave types (Python `__eq__`). -/
def WType.beq : WType → WType → Bool
  | .any, .any => true
  | .noneType, .noneType => true
  | .invalid, .invalid => true
  | .boolean, .boolean => true
  | .int, .int => true
  | .float, .float => true
  | .number, .number => true
  | .string, .string => true
  | .type, .type => true
  | .unknown, .unknown => true
  | .list a, .list b => WType.beq a b
  | .typedDict ps, .typedDict qs => WType.beqProps ps qs
  | .union ms, .union ns => WType.beqList ms ns
  | _, _ => false

def WType.beqProps : List (String × WType) → List (String × WType) → Bool
  | [], [] => true
  | (k, v) :: ps, (k', v') :: qs => k = k' && WType.beq v v' && WType.beqProps ps qs
  | _, _ => false

def WType.beqList : List WType → List WType → Bool
  | [], [] => true
  | a :: ms, b :: ns => WType.beq a b && WType.beqList ms ns
  | _, _ => false

end

mutual

/-- Structural equality on Python values (Python `__eq__`). -/
def PyVal.beq : PyVal → PyVal → Bool
  | .str a, .str b => a = b
  | .int a, .int b => a = b
  | .bool a, .bool b => a = b
  | .none, .none => true
  | .type a, .type b => WType.beq a b
  | .list as, .list bs => PyVal.beqList as bs
  | .dict as, .dict bs => PyVal.beqEntries as bs
  | _, _ => false

def PyVal.beqList : List PyVal → List PyVal → Bool
  | [], [] => true
  | a :: as, b :: bs => PyVal.beq a b && PyVal.beqList as bs
  | _, _ => false

def PyVal.beqEntries : List (String × PyVal) → List (String × PyVal) → Bool
  | [], [] => true
  | (k, v) :: as, (k', v') :: bs => k = k' && PyVal.beq v v' && PyVal.beqEntries as bs
  | _, _ => false

end

mutual

/-- Structural equality on graph nodes.  The source deduplicates traversal
by Python object identity; in the persistent, structurally shared model of
the spec (§3, §9: arena of structurally identified nodes) identity is
structural equality. -/
def Node.beq : Node → Node → Bool
  | .const t v, .const t' v' => WType.beq t t' && PyVal.beq v v'
  | .var t n, .var t' n' => WType.beq t t' && n = n'
  | .output t op ins, .output t' op' ins' =>
    WType.beq t t' && op = op' && Node.beqInputs ins ins'
  | _, _ => false

def Node.beqInputs : List (String × Node) → List (String × Node) → Bool
  | [], [] => true
  | (k, v) :: as, (k', v') :: bs => k = k' && Node.beq v v' && Node.beqInputs as bs
  | _, _ => false

end

/-- `GqlOpPlugin` from `compile_domain.py`: a query-fragment generator and
a root flag. -/
structure GqlOpPlugin where
  query_fn : List (String × PyVal) → String → String
  is_root : Bool

/-- An op definition, as the registry exposes it (registry source is not
available).  Modelled from the spec (§6): name, optional plugin bag,
optional derived-from base op (by name), and the base op's derived-ops
table (by name), which is what `_get_fragment`'s mapped-op check reads. -/
structure OpDef where
  name : String
  plugins : Option (List (String × GqlOpPlugin))
  derived_from : Option String
  derived_ops : List (String × String)

/-- The op registry.  Modelled from the spec: a lookup service from op
name to definition; we work in the regime where every op name that occurs
resolves (lookup failure is a propagated error the claims do not touch). -/
def Registry := String → OpDef

def getOp (reg : Registry) (name : String) : OpDef := reg name

/-- Association-list lookup used for plugin bags and derived-op tables. -/
def lookupStr {α : Type} (key : String) : List (String × α) → Option α
  | [] => Option.none
  | (k, v) :: rest => if k = key then Option.some v else lookupStr key rest

/-- `_get_gql_plugin` from `compile_domain.py`. -/
def getGqlPlugin (od : OpDef) : Option GqlOpPlugin :=
  match od.plugins with
  | Option.none => Option.none
  | Option.some ps => lookupStr "wb_domain_gql" ps

/-- `_is_root_node` from `compile_domain.py`: an `OutputNode` whose op
(as registered, without derived-op substitution) carries a
`wb_domain_gql` plugin with `is_root = True`. -/
def isRootNode (reg : Registry) : Node → Bool
  | .output _ opName _ =>
    match getGqlPlugin (getOp reg opName) with
    | Option.some pl => pl.is_root
    | Option.none => false
  | _ => false

mutual

/-- Modelled from the spec (§4.2, `graph` source is not available): the
depth-first traversal primitive, visiting every distinct node exactly once
(deduplicated by identity), inputs in declared order. -/
def visitNode (acc : List Node) (n : Node) : List Node :=
  if acc.any (Node.beq n) then acc
  else
    match n with
    | .output t op inputs => visitInputs (acc ++ [.output t op inputs]) inputs
    | m => acc ++ [m]

def visitInputs (acc : List Node) : List (String × Node) → List Node
  | [] => acc
  | (_, child) :: rest => visitInputs (visitNode acc child) rest

end

/-- All distinct nodes of a forest in traversal (discovery) order. -/
def visitAll (forest : List Node) : List Node :=
  forest.foldl visitNode []

/-- Modelled from the spec (§4.2): `graph.filter_all_nodes` — collect the
distinct nodes of the forest satisfying a predicate (the caller only tests
emptiness). -/
def filterAllNodes (forest : List Node) (p : Node → Bool) : List Node :=
  (visitAll forest).filter p

mutual

/-- Modelled from the spec (§4.2): `graph.map_all_nodes` — bottom-up
rewrite; children are rewritten before the parent is handed to `f`, and
unchanged subtrees collapse back to shared references (automatic under
structural identity).  Fallible because the rewriting function of
`compile_domain.py` can raise. -/
def mapNodeE (f : Node → Except String Node) : Node → Except String Node
  | .output t op inputs =>
    match mapInputsE f inputs with
    | .error e => .error e
    | .ok ins => f (.output t op ins)
  | n => f n

def mapInputsE (f : Node → Except String Node) :
    List (String × Node) → Except String (List (String × Node))
  | [] => .ok []
  | (k, v) :: rest =>
    match mapNodeE f v with
    | .error e => .error e
    | .ok v' =>
      match mapInputsE f rest with
      | .error e => .error e
      | .ok rest' => .ok ((k, v') :: rest')

end

def mapAllNodesE (f : Node → Except String Node) :
    List Node → Except String (List Node)
  | [] => .ok []
  | n :: rest =>
    match mapNodeE f n with
    | .error e => .error e
    | .ok n' =>
      match mapAllNodesE f rest with
      | .error e => .error e
      | .ok rest' => .ok (n' :: rest')

/-- The stitched graph: each node's forward record, the list of
`(consuming node, parameter name)` calls observed in the forest. -/
def StitchedGraph : Type := Node → List (Node × String)

/-- The calls one visited consumer contributes to `target`'s record. -/
def callsOf (target : Node) (m : Node) : List (Node × String) :=
  match m with
  | .output t op inputs =>
    inputs.filterMap fun kv =>
      match kv.2 with
      | .output t' op' ins' =>
        if Node.beq (.output t' op' ins') target
        then Option.some (Node.output t op inputs, kv.1)
        else Option.none
      | _ => Option.none
  | _ => []

/-- Modelled from the spec (§4.3, `stitch` source is not available):
single forward pass over the distinct nodes of the forest; for every
`OutputNode` visited, every `(param_name, input_node)` input pair whose
`input_node` is itself an `OutputNode` records a call
`(consumer, param_name)` against `input_node`.  `get_result` is function
application; a node with no recorded consumers yields `[]`. -/
def stitch (forest : List Node) : StitchedGraph := fun target =>
  ((visitAll forest).map (callsOf target)).flatten

/-- Python's `str.endswith`, spelled out over the character list. -/
def strEndsWith (s suffix : String) : Bool :=
  suffix.data.isSuffixOf s.data

/-- The pass-through whitelist of `_get_fragment` (`compile_domain.py`
lines 79-91), including the source's duplicated `concat` test. -/
def isPassthroughName (name : String) : Bool :=
  strEndsWith name "offset"
  || strEndsWith name "limit"
  || strEndsWith name "index"
  || strEndsWith name "__getitem__"
  || strEndsWith name "concat"
  || strEndsWith name "contains"
  || strEndsWith name "list"
  || strEndsWith name "concat"
  || strEndsWith name "flatten"
  || strEndsWith name "dropna"
  || name = "list-createIndexCheckpointTag"

/-- The derived-op substitution of `_get_fragment` (`compile_domain.py`
lines 73-76): resolve the op; if it is the `"mapped"` auto-derived variant
of its base op, substitute the base op's definition.  (The source indexes
`derived_ops["mapped"]` directly; the registry invariant that a base op
always carries its mapped variant makes the missing-key branch, preserved
here as returning the op unchanged, unreachable.) -/
def resolveOpDef (reg : Registry) (name : String) : OpDef :=
  let od := getOp reg name
  match od.derived_from with
  | Option.none => od
  | Option.some base =>
    match lookupStr "mapped" (getOp reg base).derived_ops with
    | Option.some m => if m = od.name then getOp reg base else od
    | Option.none => od

/-- The constant-valued inputs of a call, as a name-to-value mapping
(`compile_domain.py` lines 111-115). -/
def constNodeInputVals (inputs : List (String × Node)) : List (String × PyVal) :=
  inputs.filterMap fun kv =>
    match kv.2 with
    | .const _ v => Option.some (kv.1, v)
    | _ => Option.none

/-- The `OutputNode` consumers in a forward record, in discovery order
(the `isinstance(call.node, graph.OutputNode)` filter of
`_get_fragment`). -/
def outputCalls (calls : List (Node × String)) : List Node :=
  calls.filterMap fun c =>
    match c.1 with
    | .output t op ins => Option.some (Node.output t op ins)
    | _ => Option.none

/-- Map a fallible fragment generator over a consumer list, failing when
any element fails. -/
def fragList (f : Node → Option String) : List Node → Option (List String)
  | [] => Option.some []
  | x :: xs =>
    match f x with
    | Option.none => Option.none
    | Option.some s =>
      match fragList f xs with
      | Option.none => Option.none
      | Option.some ss => Option.some (s :: ss)

/-- `_get_fragment` from `compile_domain.py` (lines 72-119), with an
explicit recursion budget: the Python recursion follows the stitched
forward (consumer) edges, which the DAG data model keeps acyclic; `fuel`
makes the embedding total, and `Option.none` marks budget exhaustion
(which never occurs on stitched forests — see the termination theorem).
The source computes the child fragment before testing the pass-through
flag; the branches are reordered here without changing any result.
Non-`OutputNode` arguments cannot occur (the Python signature takes an
`OutputNode`, and every recursive call is filtered to `OutputNode`s). -/
def getFragmentF (reg : Registry) (sg : StitchedGraph) :
    Nat → Node → Option String
  | 0, _ => Option.none
  | fuel + 1, .output t opName inputs =>
    let od := resolveOpDef reg opName
    let isPass := isPassthroughName od.name
    match getGqlPlugin od with
    | Option.none =>
      if isPass then
        match fragList (getFragmentF reg sg fuel)
            (outputCalls (sg (.output t opName inputs))) with
        | Option.none => Option.none
        | Option.some frags => Option.some (String.intercalate "\n" frags)
      else Option.some ""
    | Option.some pl =>
      match fragList (getFragmentF reg sg fuel)
          (outputCalls (sg (.output t opName inputs))) with
      | Option.none => Option.none
      | Option.some frags =>
        let child := String.intercalate "\n" frags
        if isPass then Option.some child
        else Option.some (pl.query_fn (constNodeInputVals inputs) child)
  | _ + 1, .const t v => Option.some ""
  | _ + 1, .var t nm => Option.some ""

/-! ### The GraphQL selection-set structure

`compile_domain.py` merges queries through the third-party `graphql`
package's AST.  Following the spec (§9), the subset of that AST the pass
actually produces and consumes is embedded directly: argument values that
are integers, strings or names (enums, booleans, null), field selections
with optional alias, arguments and optional nested selection set, inline
fragments with a type condition, and an opaque `other` variant standing
for every selection kind the merge step does not support (e.g. fragment
spreads). -/

/-- Argument values (`graphql` value nodes, compared by `to_dict`).
Integer values keep their lexeme, exactly as `graphql`'s `IntValueNode`
stores its `value` as a string. -/
inductive GValue where
  | intVal (s : String)
  | strVal (s : String)
  | enumVal (s : String)
  deriving Repr, DecidableEq

/-- A field argument: name and value. -/
structure Argument where
  name : String
  value : GValue
  deriving Repr, DecidableEq

/-- A selection: field, inline fragment, or an unsupported variant. -/
inductive Selection where
  | field (fieldAlias : Option String) (name : String) (args : List Argument)
      (sels : Option (List Selection))
  | inlineFragment (typeCond : String) (sels : Option (List Selection))
  | other (tag : String)
  deriving Repr

/-- A top-level definition: an operation, or anything else (modelled by
fragment definitions, the example the spec gives). -/
inductive Definition where
  | operation (opType : String) (name : Option String) (sels : List Selection)
  | fragmentDef (name : String) (typeCond : String) (sels : List Selection)
  deriving Repr

/-- A parsed document. -/
structure Document where
  definitions : List Definition
  deriving Repr

/-- The (optional) child selection set of a selection
(`selection.selection_set`; absent on unsupported kinds). -/
def Selection.selSet : Selection → Option (List Selection)
  | .field _ _ _ s => s
  | .inlineFragment _ s => s
  | .other _ => Option.none

/-- Replace a selection's child selection set. -/
def Selection.withSels : Selection → Option (List Selection) → Selection
  | .field a n args _, s => .field a n args s
  | .inlineFragment t _, s => .inlineFragment t s
  | .other tag, _ => .other tag

/-- `_field_selections_are_mergeable` from `compile_domain.py`: same
name, same alias presence and value, argument lists of equal length that
match pairwise in name and value. -/
def fieldSelectionsAreMergeable (a1 : Option String) (n1 : String)
    (args1 : List Argument) (a2 : Option String) (n2 : String)
    (args2 : List Argument) : Bool :=
  if n1 ≠ n2 then false
  else if a1.isNone && a2.isSome then false
  else if a1.isSome && a2.isNone then false
  else if a1.isSome && a2.isSome && a1 ≠ a2 then false
  else if args1.length ≠ args2.length then false
  else (args1.zip args2).all fun p => p.1.name = p.2.name && p.1.value = p.2.value

/-- The `should_merge` test of `_zip_selection_set`: two field selections
are compared with `_field_selections_are_mergeable`, two inline fragments
with `_fragment_selections_are_mergeable` (same type-condition name);
anything else does not merge. -/
def selMergeable : Selection → Selection → Bool
  | .field a1 n1 g1 _, .field a2 n2 g2 _ =>
    fieldSelectionsAreMergeable a1 n1 g1 a2 n2 g2
  | .inlineFragment t1 _, .inlineFragment t2 _ => t1 = t2
  | _, _ => false

/-- The merge action of `_zip_selection_set`: append the incoming
selection's children (when it has a selection set, creating an empty one
on the target if needed) to the first-seen selection's children. -/
def mergeChildren (target sel : Selection) : Selection :=
  match sel.selSet with
  | Option.none => target
  | Option.some s => target.withSels (Option.some (target.selSet.getD [] ++ s))

/-- Merge a selection into the first mergeable entry of the accumulated
list, if any (the inner `for ... break` of `_zip_selection_set`). -/
def mergeFirst (sel : Selection) : List Selection → Option (List Selection)
  | [] => Option.none
  | x :: xs =>
    if selMergeable sel x then Option.some (mergeChildren x sel :: xs)
    else
      match mergeFirst sel xs with
      | Option.some ys => Option.some (x :: ys)
      | Option.none => Option.none

/-- One step of the outer loop of `_zip_selection_set`: merge into the
first mergeable entry, else append (the `for ... else` clause). -/
def insertSel (acc : List Selection) (sel : Selection) : List Selection :=
  (mergeFirst sel acc).getD (acc ++ [sel])

/-- The first (merging) loop of `_zip_selection_set`: fold the selections
into `new_selections`, failing on any unsupported selection kind. -/
def zipMergePass : List Selection → List Selection → Except String (List Selection)
  | acc, [] => .ok acc
  | acc, .other tag :: _ =>
    .error ("Found unsupported selection type " ++ tag
      ++ ", please add implementation in compile_domain.py")
  | acc, sel :: rest => zipMergePass (insertSel acc sel) rest

mutual

/-- Structural size of a selection, bounding the zip recursion. -/
def Selection.size : Selection → Nat
  | .field _ _ _ Option.none => 1
  | .field _ _ _ (Option.some s) => 2 + Selection.sizeList s
  | .inlineFragment _ Option.none => 1
  | .inlineFragment _ (Option.some s) => 2 + Selection.sizeList s
  | .other _ => 1

def Selection.sizeList : List Selection → Nat
  | [] => 0
  | x :: xs => Selection.size x + Selection.sizeList xs

end

theorem Selection.size_pos (s : Selection) : 1 ≤ s.size := by
  cases s with
  | field a n args sels => cases sels <;> simp [Selection.size] <;> omega
  | inlineFragment t sels => cases sels <;> simp [Selection.size] <;> omega
  | other tag => simp [Selection.size]

theorem Selection.sizeList_append (l1 l2 : List Selection) :
    Selection.sizeList (l1 ++ l2) = Selection.sizeList l1 + Selection.sizeList l2 := by
  induction l1 with
  | nil => simp [Selection.sizeList]
  | cons x xs ih => simp [Selection.sizeList, ih]; omega

theorem Selection.selSet_size {sel : Selection} {s : List Selection}
    (h : sel.selSet = Option.some s) :
    Selection.sizeList s + 2 ≤ sel.size := by
  cases sel with
  | field a n args sels =>
    cases sels with
    | none => simp [Selection.selSet] at h
    | some s' =>
      simp [Selection.selSet] at h
      subst h
      simp [Selection.size] <;> omega
  | inlineFragment t sels =>
    cases sels with
    | none => simp [Selection.selSet] at h
    | some s' =>
      simp [Selection.selSet] at h
      subst h
      simp [Selection.size] <;> omega
  | other tag => simp [Selection.selSet] at h

theorem mergeChildren_size (target sel : Selection) :
    (mergeChildren target sel).size ≤ target.size + sel.size := by
  unfold mergeChildren
  cases hs : sel.selSet with
  | none => simp <;> omega
  | some s =>
    have hsz := Selection.selSet_size hs
    cases target with
    | field a n args sels =>
      cases sels with
      | none =>
        simp [Selection.withSels, Selection.selSet, Selection.size,
          Selection.sizeList_append] <;> omega
      | some t =>
        simp [Selection.withSels, Selection.selSet, Selection.size,
          Selection.sizeList_append] <;> omega
    | inlineFragment tc sels =>
      cases sels with
      | none =>
        simp [Selection.withSels, Selection.selSet, Selection.size,
          Selection.sizeList_append] <;> omega
      | some t =>
        simp [Selection.withSels, Selection.selSet, Selection.size,
          Selection.sizeList_append] <;> omega
    | other tag =>
      have := Selection.size_pos sel
      simp [Selection.withSels, Selection.size] <;> omega

theorem mergeFirst_size {sel : Selection} {acc ys : List Selection}
    (h : mergeFirst sel acc = Option.some ys) :
    Selection.sizeList ys ≤ Selection.sizeList acc + sel.size := by
  induction acc generalizing ys with
  | nil => simp [mergeFirst] at h
  | cons x xs ih =>
    unfold mergeFirst at h
    by_cases hm : selMergeable sel x
    · simp [hm] at h
      subst h
      have := mergeChildren_size x sel
      simp [Selection.sizeList] <;> omega
    · simp [hm] at h
      cases hys : mergeFirst sel xs with
      | none => simp [hys] at h
      | some zs =>
        simp [hys] at h
        subst h
        have := ih hys
        simp [Selection.sizeList] <;> omega

theorem insertSel_size (acc : List Selection) (sel : Selection) :
    Selection.sizeList (insertSel acc sel) ≤ Selection.sizeList acc + sel.size := by
  unfold insertSel
  cases h : mergeFirst sel acc with
  | none => simp [Selection.sizeList_append, Selection.sizeList] <;> omega
  | some ys => simpa using mergeFirst_size h

theorem zipMergePass_size {acc sels out : List Selection}
    (h : zipMergePass acc sels = .ok out) :
    Selection.sizeList out ≤ Selection.sizeList acc + Selection.sizeList sels := by
  induction sels generalizing acc with
  | nil => simp [zipMergePass] at h; subst h; omega
  | cons x xs ih =>
    cases x with
    | other tag => simp [zipMergePass] at h
    | field a n args s =>
      simp only [zipMergePass] at h
      have := ih h
      have := insertSel_size acc (.field a n args s)
      simp [Selection.sizeList] <;> omega
    | inlineFragment t s =>
      simp only [zipMergePass] at h
      have := ih h
      have := insertSel_size acc (.inlineFragment t s)
      simp [Selection.sizeList] <;> omega

theorem Selection.size_of_mem {x : Selection} {l : List Selection}
    (h : x ∈ l) : x.size ≤ Selection.sizeList l := by
  induction l with
  | nil => simp at h
  | cons y ys ih =>
    rcases List.mem_cons.mp h with rfl | hmem
    · simp [Selection.sizeList] <;> omega
    · have := ih hmem
      simp [Selection.sizeList] <;> omega

mutual

/-- `_zip_selection_set` from `compile_domain.py`: first merge mergeable
siblings in first-seen order (`zipMergePass`), then recursively zip each
remaining selection's children. -/
def zipSelList (sels : List Selection) : Except String (List Selection) :=
  match h : zipMergePass [] sels with
  | .error e => .error e
  | .ok merged => zipEach merged
termination_by 2 * Selection.sizeList sels + 1
decreasing_by
  have hsz := zipMergePass_size h
  simp [Selection.sizeList] at hsz
  omega

/-- The second loop of `_zip_selection_set`: zip the children of each
merged selection. -/
def zipEach : List Selection → Except String (List Selection)
  | [] => .ok []
  | x :: xs =>
    match zipOne x with
    | .error e => .error e
    | .ok x' =>
      match zipEach xs with
      | .error e => .error e
      | .ok xs' => .ok (x' :: xs')
termination_by l => 2 * Selection.sizeList l
decreasing_by
  · have := Selection.size_pos x
    simp [Selection.sizeList]
    omega
  · have := Selection.size_pos x
    simp [Selection.sizeList]
    omega

/-- Zip one selection's children, if it has any. -/
def zipOne (sel : Selection) : Except String Selection :=
  match hs : sel.selSet with
  | Option.none => .ok sel
  | Option.some s =>
    match zipSelList s with
    | .error e => .error e
    | .ok s' => .ok (sel.withSels (Option.some s'))
termination_by 2 * sel.size - 1
decreasing_by
  have := Selection.selSet_size hs
  omega

end

/-- `_zip_gql_doc` from `compile_domain.py`: more than one top-level
definition is an error; a single non-operation definition is an error
(an empty definition list would be a Python `IndexError`); otherwise zip
the operation's selection set. -/
def zipGqlDoc (doc : Document) : Except String Document :=
  if doc.definitions.length > 1 then .error "Only one query definition is supported"
  else
    match doc.definitions with
    | [] => .error "list index out of range"
    | d :: _ =>
      match d with
      | .operation opType nm sels =>
        match zipSelList sels with
        | .error e => .error e
        | .ok sels' => .ok ⟨[.operation opType nm sels']⟩
      | .fragmentDef _ _ _ => .error "Only operation definitions are supported"

mutual

/-- Does a selection contain (or equal) an unsupported selection at any
depth? -/
def Selection.hasOther : Selection → Bool
  | .other _ => true
  | .field _ _ _ Option.none => false
  | .field _ _ _ (Option.some s) => Selection.listHasOther s
  | .inlineFragment _ Option.none => false
  | .inlineFragment _ (Option.some s) => Selection.listHasOther s

def Selection.listHasOther : List Selection → Bool
  | [] => false
  | x :: xs => Selection.hasOther x || Selection.listHasOther xs

end

/-- Selection kinds the merge step supports: fields and inline
fragments. -/
def Selection.isSupported : Selection → Bool
  | .other _ => false
  | _ => true

/-- Is a top-level definition an operation definition? -/
def Definition.isOperation : Definition → Bool
  | .operation _ _ _ => true
  | .fragmentDef _ _ _ => false

/-- Does a definition's selection set contain an unsupported selection at
any depth? -/
def Definition.selsHaveOther : Definition → Bool
  | .operation _ _ sels => Selection.listHasOther sels
  | .fragmentDef _ _ sels => Selection.listHasOther sels

/-! ### Lexing, parsing and printing the query text

`_normalize_query_str` parses the assembled query text with the
third-party `graphql` package, zips it, prints it, and strips ignored
characters.  Modelled from the spec (§6, §9): a minimal lexer/parser/
printer for exactly the selection-set language the pass produces — names,
integer literals (kept as their lexemes, as `graphql`'s `IntValueNode`
does), escape-free strings, the punctuators `( ) : { }` and the spread
`...`; commas and whitespace are ignored tokens.  The printer emits the
stripped form directly: tokens joined with a space exactly between a
non-punctuator and a following non-punctuator or spread, which is
`strip_ignored_characters`' rule. -/

/-- Opening brace character. -/
def lbraceCh : Char := Char.ofNat 123

/-- Closing brace character. -/
def rbraceCh : Char := Char.ofNat 125

/-- Lexical tokens of the query subset. -/
inductive Tok where
  | name (s : String)
  | int (s : String)
  | str (s : String)
  | punct (c : Char)
  | spread
  deriving Repr, DecidableEq

/-- Non-punctuator tokens, which `strip_ignored_characters` separates by
a space from a following non-punctuator or spread. -/
def Tok.isWord : Tok → Bool
  | .name _ => true
  | .int _ => true
  | .str _ => true
  | _ => false

/-- The character text of one token. -/
def Tok.text : Tok → String
  | .name s => s
  | .int s => s
  | .str s => "\"" ++ s ++ "\""
  | .punct c => String.singleton c
  | .spread => "..."

/-- Render a token stream as `strip_ignored_characters` output. -/
def renderToks : List Tok → String
  | [] => ""
  | [t] => t.text
  | t :: t' :: rest =>
    t.text ++ (if t.isWord && (t'.isWord || t' == Tok.spread) then " " else "")
      ++ renderToks (t' :: rest)

def isIgnoredCh (c : Char) : Bool :=
  c = ' ' || c = '\t' || c = '\n' || c = '\r' || c = ','

def isNameStartCh (c : Char) : Bool :=
  ('A' ≤ c && c ≤ 'Z') || ('a' ≤ c && c ≤ 'z') || c = '_'

def isDigitCh (c : Char) : Bool :=
  c = '0' || c = '1' || c = '2' || c = '3' || c = '4'
    || c = '5' || c = '6' || c = '7' || c = '8' || c = '9'

def isNameCh (c : Char) : Bool :=
  isNameStartCh c || isDigitCh c

def isPunctCh (c : Char) : Bool :=
  c = '(' || c = ')' || c = ':' || c = lbraceCh || c = rbraceCh

def isStrCh (c : Char) : Bool :=
  !(c = '"' || c = '\\' || c = '\n')

/-- Split off the longest prefix satisfying `p`. -/
def spanCh (p : Char → Bool) : List Char → List Char × List Char
  | [] => ([], [])
  | c :: cs =>
    if p c then
      let (t, r) := spanCh p cs
      (c :: t, r)
    else ([], c :: cs)

/-- The lexer (fuelled; the fuel only bounds recursion and one unit per
input character plus one always suffices). -/
def lexToks : Nat → List Char → Except String (List Tok)
  | 0, _ => .error "lexer: out of fuel"
  | _ + 1, [] => .ok []
  | fuel + 1, c :: rest =>
    if isIgnoredCh c then lexToks fuel rest
    else if isNameStartCh c then
      let (t, r) := spanCh isNameCh rest
      match lexToks fuel r with
      | .error e => .error e
      | .ok ts => .ok (Tok.name (String.mk (c :: t)) :: ts)
    else if isDigitCh c then
      let (t, r) := spanCh isDigitCh rest
      match lexToks fuel r with
      | .error e => .error e
      | .ok ts => .ok (Tok.int (String.mk (c :: t)) :: ts)
    else if c = '-' then
      match rest with
      | d :: rest' =>
        if isDigitCh d then
          let (t, r) := spanCh isDigitCh rest'
          match lexToks fuel r with
          | .error e => .error e
          | .ok ts => .ok (Tok.int (String.mk ('-' :: d :: t)) :: ts)
        else .error "lexer: expected digit after minus sign"
      | [] => .error "lexer: expected digit after minus sign"
    else if c = '"' then
      let (t, r) := spanCh isStrCh rest
      match r with
      | '"' :: r' =>
        match lexToks fuel r' with
        | .error e => .error e
        | .ok ts => .ok (Tok.str (String.mk t) :: ts)
      | _ => .error "lexer: unterminated string"
    else if c = '.' then
      match rest with
      | '.' :: '.' :: r =>
        match lexToks fuel r with
        | .error e => .error e
        | .ok ts => .ok (Tok.spread :: ts)
      | _ => .error "lexer: expected spread"
    else if isPunctCh c then
      match lexToks fuel rest with
      | .error e => .error e
      | .ok ts => .ok (Tok.punct c :: ts)
    else .error "lexer: unexpected character"

/-- Print an argument value as a token. -/
def printValue : GValue → Tok
  | .intVal s => .int s
  | .strVal s => .str s
  | .enumVal s => .name s

/-- Print an argument list body (names, colons, values). -/
def printArgs : List Argument → List Tok
  | [] => []
  | a :: rest => .name a.name :: .punct ':' :: printValue a.value :: printArgs rest

mutual

/-- Print one selection as tokens (the stripped `print_ast` form). -/
def printSel : Selection → List Tok
  | .field a n args sels =>
    (match a with
     | Option.some al => [Tok.name al, Tok.punct ':']
     | Option.none => [])
    ++ [Tok.name n]
    ++ (match args with
        | [] => []
        | _ => Tok.punct '(' :: printArgs args ++ [Tok.punct ')'])
    ++ (match sels with
        | Option.none => []
        | Option.some s => Tok.punct lbraceCh :: printSels s ++ [Tok.punct rbraceCh])
  | .inlineFragment t sels =>
    [Tok.spread, Tok.name "on", Tok.name t]
    ++ (match sels with
        | Option.none => []
        | Option.some s => Tok.punct lbraceCh :: printSels s ++ [Tok.punct rbraceCh])
  | .other f => [Tok.spread, Tok.name f]

def printSels : List Selection → List Tok
  | [] => []
  | s :: rest => printSel s ++ printSels rest

end

/-- Print a top-level definition; an unnamed `query` operation prints in
the shorthand form, exactly as `graphql`'s printer does. -/
def printDefn : Definition → List Tok
  | .operation opType nm sels =>
    (if opType = "query" && nm.isNone then []
     else Tok.name opType :: (match nm with
       | Option.some s => [Tok.name s]
       | Option.none => []))
    ++ (Tok.punct lbraceCh :: printSels sels ++ [Tok.punct rbraceCh])
  | .fragmentDef n t sels =>
    [Tok.name "fragment", Tok.name n, Tok.name "on", Tok.name t]
    ++ (Tok.punct lbraceCh :: printSels sels ++ [Tok.punct rbraceCh])

/-- Print a document as a token stream. -/
def printDoc (doc : Document) : List Tok :=
  (doc.definitions.map printDefn).flatten

/-- Parse one argument value token. -/
def parseValue : List Tok → Except String (GValue × List Tok)
  | .int s :: rest => .ok (.intVal s, rest)
  | .str s :: rest => .ok (.strVal s, rest)
  | .name s :: rest => .ok (.enumVal s, rest)
  | _ => .error "parser: expected value"

/-- Parse arguments up to the closing parenthesis (one or more). -/
def parseArgs : Nat → List Tok → Except String (List Argument × List Tok)
  | 0, _ => .error "parser: out of fuel"
  | fuel + 1, toks =>
    match toks with
    | .name n :: .punct ':' :: rest =>
      match parseValue rest with
      | .error e => .error e
      | .ok (v, rest') =>
        match rest' with
        | .punct ')' :: rest'' => .ok ([⟨n, v⟩], rest'')
        | _ =>
          match parseArgs fuel rest' with
          | .error e => .error e
          | .ok (args, rest'') => .ok (⟨n, v⟩ :: args, rest'')
    | _ => .error "parser: expected argument name"

mutual

/-- Parse one selection. -/
def parseSel : Nat → List Tok → Except String (Selection × List Tok)
  | 0, _ => .error "parser: out of fuel"
  | fuel + 1, toks =>
    match toks with
    | .spread :: .name n :: rest =>
      if n = "on" then
        match rest with
        | .name t :: rest' =>
          match parseSelSet fuel rest' with
          | .error e => .error e
          | .ok (sels, rest'') => .ok (.inlineFragment t (Option.some sels), rest'')
        | _ => .error "parser: expected type condition"
      else .ok (.other n, rest)
    | .name n :: rest =>
      match rest with
      | .punct ':' :: .name f :: rest' =>
        parseFieldTail fuel (Option.some n) f rest'
      | _ => parseFieldTail fuel Option.none n rest
    | _ => .error "parser: expected selection"

/-- Parse the argument list and child selection set of a field. -/
def parseFieldTail (fuel : Nat) (fieldAlias : Option String) (n : String)
    (toks : List Tok) : Except String (Selection × List Tok) :=
  match fuel with
  | 0 => .error "parser: out of fuel"
  | fuel + 1 =>
    match toks with
    | .punct '(' :: rest =>
      match parseArgs fuel rest with
      | .error e => .error e
      | .ok (args, rest') =>
        match rest' with
        | .punct c :: rest'' =>
          if c = lbraceCh then
            match parseSels fuel rest'' with
            | .error e => .error e
            | .ok (sels, rest''') => .ok (.field fieldAlias n args (Option.some sels), rest''')
          else .ok (.field fieldAlias n args Option.none, .punct c :: rest'')
        | _ => .ok (.field fieldAlias n args Option.none, rest')
    | .punct c :: rest =>
      if c = lbraceCh then
        match parseSels fuel rest with
        | .error e => .error e
        | .ok (sels, rest') => .ok (.field fieldAlias n [] (Option.some sels), rest')
      else .ok (.field fieldAlias n [] Option.none, .punct c :: rest)
    | _ => .ok (.field fieldAlias n [] Option.none, toks)

/-- Parse a brace-enclosed selection set, consuming the opening brace. -/
def parseSelSet (fuel : Nat) (toks : List Tok) :
    Except String (List Selection × List Tok) :=
  match fuel with
  | 0 => .error "parser: out of fuel"
  | fuel + 1 =>
    match toks with
    | .punct c :: rest =>
      if c = lbraceCh then parseSels fuel rest
      else .error "parser: expected selection set"
    | _ => .error "parser: expected selection set"

/-- Parse one-or-more selections up to (and consuming) the closing
brace. -/
def parseSels (fuel : Nat) (toks : List Tok) :
    Except String (List Selection × List Tok) :=
  match fuel with
  | 0 => .error "parser: out of fuel"
  | fuel + 1 =>
    match parseSel fuel toks with
    | .error e => .error e
    | .ok (sel, rest) =>
      match rest with
      | .punct c :: rest' =>
        if c = rbraceCh then .ok ([sel], rest')
        else
          match parseSels fuel rest with
          | .error e => .error e
          | .ok (sels, rest'') => .ok (sel :: sels, rest'')
      | _ =>
        match parseSels fuel rest with
        | .error e => .error e
        | .ok (sels, rest'') => .ok (sel :: sels, rest'')

end

/-- Parse one top-level definition. -/
def parseDefn (fuel : Nat) (toks : List Tok) :
    Except String (Definition × List Tok) :=
  match toks with
  | .name kw :: rest =>
    if kw = "query" || kw = "mutation" || kw = "subscription" then
      match rest with
      | .name nm :: rest' =>
        match parseSelSet fuel rest' with
        | .error e => .error e
        | .ok (sels, rest'') => .ok (.operation kw (Option.some nm) sels, rest'')
      | _ =>
        match parseSelSet fuel rest with
        | .error e => .error e
        | .ok (sels, rest') => .ok (.operation kw Option.none sels, rest')
    else if kw = "fragment" then
      match rest with
      | .name nm :: .name onKw :: .name t :: rest' =>
        if onKw = "on" then
          match parseSelSet fuel rest' with
          | .error e => .error e
          | .ok (sels, rest'') => .ok (.fragmentDef nm t sels, rest'')
        else .error "parser: expected keyword on"
      | _ => .error "parser: malformed fragment definition"
    else .error "parser: expected definition"
  | .punct c :: rest =>
    if c = lbraceCh then
      match parseSels fuel rest with
      | .error e => .error e
      | .ok (sels, rest') => .ok (.operation "query" Option.none sels, rest')
    else .error "parser: expected definition"
  | _ => .error "parser: expected definition"

/-- Parse one-or-more definitions to the end of the token stream. -/
def parseDefns : Nat → List Tok → Except String (List Definition)
  | 0, _ => .error "parser: out of fuel"
  | fuel + 1, toks =>
    match parseDefn fuel toks with
    | .error e => .error e
    | .ok (d, rest) =>
      match rest with
      | [] => .ok [d]
      | _ =>
        match parseDefns fuel rest with
        | .error e => .error e
        | .ok ds => .ok (d :: ds)

/-- The fuel budget the driver hands the lexer and parser; generous
relative to the input length, which bounds their recursion depth. -/
def parseFuel (n : Nat) : Nat := 4 * n + 16

/-- `graphql.language.parse` on the embedded subset. -/
def parseGql (s : String) : Except String Document :=
  match lexToks (s.data.length + 1) s.data with
  | .error e => .error e
  | .ok toks =>
    match parseDefns (parseFuel toks.length) toks with
    | .error e => .error e
    | .ok ds => .ok ⟨ds⟩

mutual

/-- Fuel sufficient for `parseSel` to consume a printed selection. -/
def needSel : Selection → Nat
  | .field _ _ args Option.none => 2 + args.length
  | .field _ _ args (Option.some s) => 3 + args.length + needSels s
  | .inlineFragment _ Option.none => 2
  | .inlineFragment _ (Option.some s) => 2 + needSels s
  | .other _ => 1

/-- Fuel sufficient for `parseSels` to consume a printed selection list
and its closing brace. -/
def needSels : List Selection → Nat
  | [] => 0
  | x :: xs => 1 + needSel x + needSels xs

end

/-! Well-formedness of tokens and trees, characterizing exactly what the
lexer and parser produce (names are identifier-shaped, integer lexemes
are digit runs with an optional sign, strings are escape-free, selection
sets are nonempty, fragment-spread names are not `on`, operation types
are the three keywords). -/

/-- Identifier-shaped strings. -/
def nameWf (s : String) : Bool :=
  match s.data with
  | [] => false
  | c :: cs => isNameStartCh c && cs.all isNameCh

/-- Integer lexemes. -/
def intWf (s : String) : Bool :=
  match s.data with
  | [] => false
  | c :: cs =>
    if c = '-' then !cs.isEmpty && cs.all isDigitCh
    else isDigitCh c && cs.all isDigitCh

/-- Escape-free string literal bodies. -/
def strWf (s : String) : Bool := s.data.all isStrCh

/-- Well-formed tokens. -/
def tokWf : Tok → Bool
  | .name s => nameWf s
  | .int s => intWf s
  | .str s => strWf s
  | .punct c => isPunctCh c
  | .spread => true

def valueWf : GValue → Bool
  | .intVal s => intWf s
  | .strVal s => strWf s
  | .enumVal s => nameWf s

def argWf (a : Argument) : Bool := nameWf a.name && valueWf a.value

mutual

/-- Well-formed selections (shapes the parser can produce and the
printer reparses). -/
def selWf : Selection → Bool
  | .field a n args sels =>
    (match a with
     | Option.none => true
     | Option.some al => nameWf al)
    && nameWf n
    && args.all argWf
    && (match sels with
        | Option.none => true
        | Option.some s => !s.isEmpty && selListWf s)
  | .inlineFragment t sels =>
    nameWf t
    && (match sels with
        | Option.none => false
        | Option.some s => !s.isEmpty && selListWf s)
  | .other f => nameWf f && f ≠ "on"

def selListWf : List Selection → Bool
  | [] => true
  | x :: xs => selWf x && selListWf xs

end

def defnWf : Definition → Bool
  | .operation opType nm sels =>
    (opType = "query" || opType = "mutation" || opType = "subscription")
    && (match nm with
        | Option.none => true
        | Option.some s => nameWf s)
    && !sels.isEmpty && selListWf sels
  | .fragmentDef nm t sels =>
    nameWf nm && nameWf t && !sels.isEmpty && selListWf sels

/-- Well-formed single-definition documents (the only shape the zip can
return). -/
def docWf (doc : Document) : Bool :=
  match doc.definitions with
  | [d] => defnWf d
  | _ => false

/-- Token streams that may legally follow a printed selection: nothing,
a closing brace, or the first token of another selection — never a
token that would extend the previous field (an opening parenthesis, a
colon, or an opening brace). -/
def followOk : List Tok → Prop
  | [] => True
  | .punct c :: _ => ¬(c = '(') ∧ ¬(c = ':') ∧ ¬(c = lbraceCh)
  | _ => True

/-- `_normalize_query_str` from `compile_domain.py`: parse, zip, print,
strip ignored characters. -/
def normalizeQueryStr (s : String) : Except String String :=
  match parseGql s with
  | .error e => .error e
  | .ok doc =>
    match zipGqlDoc doc with
    | .error e => .error e
    | .ok doc' => .ok (renderToks (printDoc doc'))

/-- The recursion budget `apply_domain_op_gql_translation` uses for
fragment synthesis: one unit per distinct node of the forest suffices,
because each consumer step moves to a node strictly later in a chain of
distinct nodes. -/
def fragmentFuel (forest : List Node) : Nat :=
  (visitAll forest).length + 1

/-- `_replace_with_merged_gql` from `compile_domain.py` (lines 44-58):
non-root nodes pass through; a root node is replaced by an `OutputNode`
of the same type calling `gqlroot-wbgqlquery` with the normalized query
text and the original output type as its two constant inputs.  The
closure's captured stitch result `p` is recomputed from the forest it was
built from (`stitch` is pure), which also supplies the recursion budget
for fragment synthesis. -/
def replaceWithMergedGql (reg : Registry) (forest : List Node) (node : Node) :
    Except String Node :=
  match node with
  | .output t opName inputs =>
    if isRootNode reg (.output t opName inputs) then
      match getFragmentF reg (stitch forest) (fragmentFuel forest)
          (.output t opName inputs) with
      | Option.none => .error "fragment synthesis exceeded its recursion budget"
      | Option.some frag =>
        match normalizeQueryStr ("query WeavePythonCG \x7b " ++ frag ++ " \x7d") with
        | .error e => .error e
        | .ok q =>
          .ok (.output t "gqlroot-wbgqlquery"
            [("query_str", .const .string (.str q)),
             ("output_type", .const .type (.type t))])
    else .ok (.output t opName inputs)
  | n => .ok n

/-- `apply_domain_op_gql_translation` from `compile_domain.py` (lines
38-60): if no node of the forest is a root node, return the forest
unchanged; otherwise stitch once and rewrite every node with
`_replace_with_merged_gql`. -/
def applyDomainOpGqlTranslation (reg : Registry) (leafNodes : List Node) :
    Except String (List Node) :=
  if (filterAllNodes leafNodes (isRootNode reg)).isEmpty then .ok leafNodes
  else mapAllNodesE (replaceWithMergedGql reg leafNodes) leafNodes

/-! ### The type system's `type_of` and `merge_types`

Modelled from the spec: the `weave_types` source is not available; §4.1
gives the contracts of `type_of` and `merge_types`, pinned down by the
repository's own tests (`test_weave_types.py`): `type_of` maps literals
to their types and merges element types of heterogeneous lists;
`merge_types` merges two `TypedDict`s key-wise, making keys absent on one
side optional, and otherwise returns the left type on equality and a
flattened, deduplicated union otherwise. -/

/-- Key-preserving lookup order: the keys of the first dict, then the new
keys of the second (the tests require stable key order). -/
def lookupWType (key : String) : List (String × WType) → Option WType
  | [] => Option.none
  | (k, v) :: rest => if k = key then Option.some v else lookupWType key rest

/-- The alternative members a type contributes to a union (a nested union
flattens). -/
def unionMembers : WType → List WType
  | .union ms => ms
  | t => [t]

/-- Keep the first occurrence of each type (deduplication). -/
def dedupTypes : List WType → List WType
  | [] => []
  | t :: rest => t :: dedupTypes (rest.filter (fun u => !WType.beq t u))
termination_by l => l.length
decreasing_by
  have := List.length_filter_le (fun u => !WType.beq t u) rest
  simp
  omega

/-- Union of two (unequal) types, flattening nested unions and
deduplicating members. -/
def mkUnion (a b : WType) : WType :=
  .union (dedupTypes (unionMembers a ++ unionMembers b))

theorem sizeOf_lookupWType {k : String} {qs : List (String × WType)}
    {w : WType} (h : lookupWType k qs = Option.some w) :
    sizeOf w < sizeOf qs := by
  induction qs with
  | nil => simp [lookupWType] at h
  | cons p rest ih =>
    obtain ⟨k', v⟩ := p
    unfold lookupWType at h
    by_cases hk : k' = k
    · simp [hk] at h
      subst h
      simp
      omega
    · simp [hk] at h
      have := ih h
      simp
      omega

mutual

/-- Modelled from the spec (§4.1): `merge_types` — two `TypedDict`s merge
key-wise; otherwise equal types merge to the left one and unequal types
to a flattened, deduplicated union. -/
def mergeTypes (a b : WType) : WType :=
  match a, b with
  | .typedDict ps, .typedDict qs => .typedDict (mergeProps ps qs)
  | a, b => if WType.beq a b then a else mkUnion a b
termination_by sizeOf a + sizeOf b

/-- Merge the properties of two `TypedDict`s: shared keys merge
recursively, keys on one side only become optional. -/
def mergeProps (ps qs : List (String × WType)) : List (String × WType) :=
  mergePropsLeft ps qs ++ mergePropsRight ps qs
termination_by sizeOf ps + sizeOf qs + 1

/-- First dict's keys, merged with the second's values when shared, made
optional otherwise. -/
def mergePropsLeft (ps qs : List (String × WType)) : List (String × WType) :=
  match ps with
  | [] => []
  | (k, v) :: rest =>
    (match hw : lookupWType k qs with
     | Option.some w => (k, mergeTypes v w)
     | Option.none => (k, mergeTypes v .noneType))
    :: mergePropsLeft rest qs
termination_by sizeOf ps + sizeOf qs
decreasing_by
  all_goals first
    | (have h9 := sizeOf_lookupWType hw
       simp
       omega)
    | (simp
       omega)
    | simp
    | omega

/-- Second dict's keys absent from the first, made optional. -/
def mergePropsRight (ps qs : List (String × WType)) : List (String × WType) :=
  match qs with
  | [] => []
  | (k, w) :: rest =>
    match lookupWType k ps with
    | Option.some _ => mergePropsRight ps rest
    | Option.none => (k, mergeTypes w .noneType) :: mergePropsRight ps rest
termination_by sizeOf ps + sizeOf qs
decreasing_by
  all_goals first
    | (simp
       omega)
    | simp
    | omega

end

/-- `optional(T) = Union{T, None}` (spec §4.1). -/
def optionalW (t : WType) : WType := mergeTypes t .noneType

/-- Fold `merge_types` over a list of types, left to right. -/
def mergeAllTypesFrom (acc : WType) : List WType → WType
  | [] => acc
  | t :: rest => mergeAllTypesFrom (mergeTypes acc t) rest

/-- Merged element type of a container; `Unknown` for an empty list. -/
def mergeAllTypes : List WType → WType
  | [] => .unknown
  | t :: rest => mergeAllTypesFrom t rest

mutual

/-- Modelled from the spec (§4.1): `type_of` — deterministic typing of
literal values; lists merge their element types (`Unknown` when empty),
dicts type key-wise. -/
def typeOf : PyVal → WType
  | .str _ => .string
  | .int _ => .int
  | .bool _ => .boolean
  | .none => .noneType
  | .type _ => .type
  | .list vs => .list (mergeAllTypes (typeOfList vs))
  | .dict entries => .typedDict (typeOfEntries entries)

def typeOfList : List PyVal → List WType
  | [] => []
  | v :: rest => typeOf v :: typeOfList rest

def typeOfEntries : List (String × PyVal) → List (String × WType)
  | [] => []
  | (k, v) :: rest => (k, typeOf v) :: typeOfEntries rest

end

/-! ### Concrete fixtures

A small registry and forest realizing the spec's end-to-end scenario:
`projectRuns(project) → Runs` with a root plugin emitting
`runs { <child> }`, and `runName(Runs) → String` with a plugin emitting
`name`; plus a pass-through `limit` op and a plugin-free registry. -/

def plainOp (name : String) : OpDef :=
  { name := name, plugins := Option.none,
    derived_from := Option.none, derived_ops := [] }

def demoReg : Registry := fun name =>
  if name = "project-runs" then
    { name := "project-runs"
      plugins := Option.some [("wb_domain_gql",
        { query_fn := fun _ child => "runs \x7b " ++ child ++ " \x7d"
          is_root := true })]
      derived_from := Option.none
      derived_ops := [] }
  else if name = "run-name" then
    { name := "run-name"
      plugins := Option.some [("wb_domain_gql",
        { query_fn := fun _ _ => "name", is_root := false })]
      derived_from := Option.none
      derived_ops := [] }
  else plainOp name

def pNode : Node := Node.var WType.string "p"

def projRunsNode : Node :=
  Node.output WType.unknown "project-runs" [("project", pNode)]

def runNameNode : Node :=
  Node.output WType.string "run-name" [("run", projRunsNode)]

def demoForest : List Node := [runNameNode]

def limitNode : Node :=
  Node.output WType.unknown "page-limit"
    [("arr", projRunsNode), ("limit", Node.const WType.int (PyVal.int 10))]

def chainForest : List Node :=
  [Node.output WType.string "run-name" [("run", limitNode)]]

def noRootReg : Registry := plainOp

def mappedReg : Registry := fun name =>
  if name = "runs-mapped" then
    { name := "runs-mapped", plugins := Option.none,
      derived_from := Option.some "runs-base", derived_ops := [] }
  else if name = "runs-base" then
    { name := "runs-base"
      plugins := Option.some [("wb_domain_gql",
        { query_fn := fun _ _ => "runs", is_root := false })]
      derived_from := Option.none
      derived_ops := [("mapped", "runs-mapped")] }
  else plainOp name

def emptySg : StitchedGraph := fun _ => []

def simpleForest : List Node :=
  [Node.output WType.string "foo-bar" [("x", Node.var WType.int "v")]]

/-! ### Claims -/

/-- C1: for every forest with zero root nodes (no node whose op carries a
remote-query plugin with `is_root = true`), `apply_domain_op_gql_translation`
returns the forest unchanged — the no-op fast path fires before any
stitching or rewriting. -/
theorem no_root_noop (reg : Registry) (forest : List Node)
    (h : ((visitAll forest).all fun n => !(isRootNode reg n)) = true) :
    applyDomainOpGqlTranslation reg forest = .ok forest := by
  have hfil : filterAllNodes forest (isRootNode reg) = [] := by
    unfold filterAllNodes
    apply List.filter_eq_nil.mpr
    intro a ha
    have := List.all_eq_true.mp h a ha
    simpa using this
  unfold applyDomainOpGqlTranslation
  simp [hfil]

/-- Witness for C1 on a plugin-free forest. -/
theorem no_root_noop_witness :
    ((visitAll simpleForest).all fun n => !(isRootNode noRootReg n)) = true
    ∧ applyDomainOpGqlTranslation noRootReg simpleForest = .ok simpleForest :=
  ⟨rfl, no_root_noop noRootReg simpleForest rfl⟩

/-- C2: on a forest with at least one root node the translation maps
every node through `_replace_with_merged_gql`, and that rewrite replaces
a root node by an `OutputNode` of the same type calling
`gqlroot-wbgqlquery` with exactly two constant inputs: the normalized
`query WeavePythonCG { <fragment> }` text under `query_str` and the
original output type under `output_type`. -/
theorem root_rewrite (reg : Registry) (forest : List Node) (t : WType)
    (opName : String) (inputs : List (String × Node)) (frag q : String)
    (hroot : isRootNode reg (.output t opName inputs) = true)
    (hfrag : getFragmentF reg (stitch forest) (fragmentFuel forest)
      (.output t opName inputs) = Option.some frag)
    (hnorm : normalizeQueryStr ("query WeavePythonCG \x7b " ++ frag ++ " \x7d")
      = .ok q)
    (hhas : (filterAllNodes forest (isRootNode reg)).isEmpty = false) :
    applyDomainOpGqlTranslation reg forest
      = mapAllNodesE (replaceWithMergedGql reg forest) forest
    ∧ replaceWithMergedGql reg forest (.output t opName inputs)
      = .ok (.output t "gqlroot-wbgqlquery"
          [("query_str", .const .string (.str q)),
           ("output_type", .const .type (.type t))]) := by
  constructor
  · unfold applyDomainOpGqlTranslation
    simp [hhas]
  · unfold replaceWithMergedGql
    simp [hroot, hfrag, hnorm]

/-- Witness for C2: the spec's end-to-end scenario
`runName(projectRuns(p))`; the root is replaced and its query constant is
the normalized `query WeavePythonCG{runs{name}}`. -/
theorem root_rewrite_witness :
    isRootNode demoReg (.output WType.unknown "project-runs" [("project", pNode)]) = true
    ∧ applyDomainOpGqlTranslation demoReg demoForest
        = mapAllNodesE (replaceWithMergedGql demoReg demoForest) demoForest
    ∧ replaceWithMergedGql demoReg demoForest
        (.output WType.unknown "project-runs" [("project", pNode)])
      = .ok (.output WType.unknown "gqlroot-wbgqlquery"
          [("query_str", .const .string (.str "query WeavePythonCG\x7bruns\x7bname\x7d\x7d")),
           ("output_type", .const .type (.type WType.unknown))]) := by
  have hnorm : normalizeQueryStr
      ("query WeavePythonCG \x7b " ++ "runs \x7b name \x7d" ++ " \x7d")
      = .ok "query WeavePythonCG\x7bruns\x7bname\x7d\x7d" := by
    have hp : parseGql ("query WeavePythonCG \x7b " ++ "runs \x7b name \x7d" ++ " \x7d")
        = .ok ⟨[Definition.operation "query" (Option.some "WeavePythonCG")
            [Selection.field Option.none "runs" []
              (Option.some [Selection.field Option.none "name" [] Option.none])]]⟩ := rfl
    have hz : zipGqlDoc ⟨[Definition.operation "query" (Option.some "WeavePythonCG")
            [Selection.field Option.none "runs" []
              (Option.some [Selection.field Option.none "name" [] Option.none])]]⟩
        = .ok ⟨[Definition.operation "query" (Option.some "WeavePythonCG")
            [Selection.field Option.none "runs" []
              (Option.some [Selection.field Option.none "name" [] Option.none])]]⟩ := by
      simp [zipGqlDoc, zipSelList, zipMergePass, insertSel, mergeFirst, zipEach, zipOne,
        Selection.selSet, Selection.withSels]
    unfold normalizeQueryStr
    rw [hp]
    dsimp only
    rw [hz]
    rfl
  exact ⟨rfl,
    root_rewrite demoReg demoForest WType.unknown "project-runs"
      [("project", pNode)] "runs \x7b name \x7d"
      "query WeavePythonCG\x7bruns\x7bname\x7d\x7d" rfl rfl hnorm rfl⟩

/-- C9: `type_of` merges the element types of a heterogeneous list of
dicts into a `List<TypedDict>` whose dict type merges all element dict
types, fields absent or `None` in some elements becoming optional; in
particular `type_of([{"a": 6, "b": "x"}, {"a": 5, "b": None}])` is
`List(TypedDict{a: Int, b: optional(String)})`. -/
theorem typeof_list_dict_merge (vs : List PyVal) :
    typeOf (.list vs) = .list (mergeAllTypes (vs.map typeOf))
    ∧ typeOf (.list [.dict [("a", .int 6), ("b", .str "x")],
                     .dict [("a", .int 5), ("b", .none)]])
      = .list (.typedDict [("a", .int), ("b", optionalW .string)]) := by
  constructor
  · have hmap : ∀ ws : List PyVal, typeOfList ws = ws.map typeOf := by
      intro ws
      induction ws with
      | nil => simp [typeOfList]
      | cons w ws ih => simp [typeOfList, ih]
    simp [typeOf, hmap]
  · simp [typeOf, typeOfList, typeOfEntries, mergeAllTypes, mergeAllTypesFrom,
      mergeTypes, mergeProps, mergePropsLeft, mergePropsRight, lookupWType,
      optionalW, WType.beq, mkUnion, unionMembers, dedupTypes]

/-- C5: fragment synthesis for a pass-through op (whitelisted by op-name
suffix) emits no fragment of its own: it returns exactly the joined
fragments of the `OutputNode` consumers in the stitched forward record. -/
theorem passthrough_fragment (reg : Registry) (sg : StitchedGraph) (fuel : Nat)
    (t : WType) (opName : String) (inputs : List (String × Node))
    (frags : List String)
    (hpass : isPassthroughName (resolveOpDef reg opName).name = true)
    (hfrags : fragList (getFragmentF reg sg fuel)
        (outputCalls (sg (.output t opName inputs))) = Option.some frags) :
    getFragmentF reg sg (fuel + 1) (.output t opName inputs)
      = Option.some (String.intercalate "\n" frags) := by
  unfold getFragmentF
  cases hp : getGqlPlugin (resolveOpDef reg opName) <;> simp [hpass, hfrags, hp]

/-- Witness for C5: the chain `runName(limit(projectRuns(p)))` — the
`limit` node forwards its consumer's `name` fragment, and the root's
fragment equals the one from the direct chain `runName(projectRuns(p))`. -/
theorem passthrough_fragment_witness :
    isPassthroughName (resolveOpDef demoReg "page-limit").name = true
    ∧ getFragmentF demoReg (stitch chainForest) (4 + 1) limitNode
        = Option.some (String.intercalate "\n" ["name"])
    ∧ getFragmentF demoReg (stitch chainForest) (fragmentFuel chainForest) projRunsNode
        = getFragmentF demoReg (stitch demoForest) (fragmentFuel demoForest) projRunsNode :=
  ⟨rfl,
    passthrough_fragment demoReg (stitch chainForest) 4 WType.unknown "page-limit"
      [("arr", projRunsNode), ("limit", Node.const WType.int (PyVal.int 10))]
      ["name"] rfl rfl,
    rfl⟩

/-- C6: fragment synthesis for a non-pass-through op yields the empty
fragment when the resolved op has no remote-query plugin, and otherwise
the plugin's `query_fn` applied to the node's constant-valued inputs and
the joined consumer fragments (in stitched discovery order). -/
theorem nonpassthrough_fragment (reg : Registry) (sg : StitchedGraph)
    (fuel : Nat) (t : WType) (opName : String) (inputs : List (String × Node))
    (frags : List String) (po : Option GqlOpPlugin)
    (hpass : isPassthroughName (resolveOpDef reg opName).name = false)
    (hplug : getGqlPlugin (resolveOpDef reg opName) = po)
    (hfrags : fragList (getFragmentF reg sg fuel)
        (outputCalls (sg (.output t opName inputs))) = Option.some frags) :
    getFragmentF reg sg (fuel + 1) (.output t opName inputs)
      = Option.some
          (match po with
           | Option.none => ""
           | Option.some pl =>
             pl.query_fn (constNodeInputVals inputs)
               (String.intercalate "\n" frags)) := by
  unfold getFragmentF
  cases po <;> simp [hpass, hplug, hfrags]

/-- Witness for C6: `runName` is not a pass-through, carries a plugin,
has no consumers, so its fragment is `query_fn` of no constants and the
empty child fragment. -/
theorem nonpassthrough_fragment_witness :
    isPassthroughName (resolveOpDef demoReg "run-name").name = false
    ∧ getFragmentF demoReg (stitch demoForest) (4 + 1) runNameNode
        = Option.some ((GqlOpPlugin.mk (fun _ _ => "name") false).query_fn
            (constNodeInputVals [("run", projRunsNode)])
            (String.intercalate "\n" [])) :=
  ⟨rfl,
    nonpassthrough_fragment demoReg (stitch demoForest) 4 WType.string "run-name"
      [("run", projRunsNode)] []
      (Option.some (GqlOpPlugin.mk (fun _ _ => "name") false)) rfl rfl rfl⟩

/-- C8: when the registered op is the `"mapped"` auto-derived variant of
a base op, fragment synthesis substitutes the base op's definition before
any plugin lookup or pass-through classification, so the mapped call site
behaves exactly like the scalar one. -/
theorem mapped_op_uses_base (reg : Registry) (sg : StitchedGraph) (fuel : Nat)
    (nm base : String) (t : WType) (inputs : List (String × Node))
    (hname : (getOp reg nm).name = nm)
    (hd : (getOp reg nm).derived_from = Option.some base)
    (hm : lookupStr "mapped" (getOp reg base).derived_ops = Option.some nm)
    (hbase : (getOp reg base).derived_from = Option.none)
    (hsg : sg (.output t nm inputs) = sg (.output t base inputs)) :
    resolveOpDef reg nm = getOp reg base
    ∧ getFragmentF reg sg fuel (.output t nm inputs)
      = getFragmentF reg sg fuel (.output t base inputs) := by
  have hres : resolveOpDef reg nm = getOp reg base := by
    unfold resolveOpDef
    simp [hd, hm, hname]
  have hres2 : resolveOpDef reg base = getOp reg base := by
    unfold resolveOpDef
    simp [hbase]
  refine ⟨hres, ?_⟩
  cases fuel with
  | zero => rfl
  | succ f =>
    unfold getFragmentF
    rw [hres, hres2, hsg]

/-- Witness for C8: a registry with `runs-mapped` derived from
`runs-base`; resolution substitutes the base definition and the two call
sites produce the same fragment. -/
theorem mapped_op_uses_base_witness :
    (getOp mappedReg "runs-mapped").derived_from = Option.some "runs-base"
    ∧ lookupStr "mapped" (getOp mappedReg "runs-base").derived_ops
        = Option.some "runs-mapped"
    ∧ (resolveOpDef mappedReg "runs-mapped" = getOp mappedReg "runs-base"
       ∧ getFragmentF mappedReg emptySg 1 (.output WType.unknown "runs-mapped" [])
         = getFragmentF mappedReg emptySg 1 (.output WType.unknown "runs-base" [])) :=
  ⟨rfl, rfl,
    mapped_op_uses_base mappedReg emptySg 1 "runs-mapped" "runs-base"
      WType.unknown [] rfl rfl rfl rfl rfl⟩

/-- C10: fragment synthesis terminates on every node whose stitched
consumer relation admits a decreasing rank (as acyclicity guarantees):
with any budget above the node's rank the result is defined, and it does
not depend on the budget — fragment synthesis is a total function under
that precondition. -/
theorem fragment_synthesis_total (reg : Registry) (sg : StitchedGraph)
    (rank : Node → Nat)
    (hacyc : ∀ n m, m ∈ outputCalls (sg n) → rank m < rank n)
    (n : Node) (f₁ f₂ : Nat) (h₁ : rank n < f₁) (h₂ : rank n < f₂) :
    (getFragmentF reg sg f₁ n).isSome = true
    ∧ getFragmentF reg sg f₁ n = getFragmentF reg sg f₂ n := by
  have main : ∀ k n, rank n ≤ k → ∀ a b : Nat, rank n < a → rank n < b →
      (getFragmentF reg sg a n).isSome = true
      ∧ getFragmentF reg sg a n = getFragmentF reg sg b n := by
    intro k
    induction k with
    | zero =>
      intro n hk a b ha hb
      obtain ⟨a', rfl⟩ : ∃ a', a = a' + 1 := ⟨a - 1, by omega⟩
      obtain ⟨b', rfl⟩ : ∃ b', b = b' + 1 := ⟨b - 1, by omega⟩
      have hempty : outputCalls (sg n) = [] := by
        cases hoc : outputCalls (sg n) with
        | nil => rfl
        | cons m ms =>
          exfalso
          have := hacyc n m (by rw [hoc]; simp)
          omega
      cases n with
      | const t v => simp [getFragmentF]
      | var t nm => simp [getFragmentF]
      | output t opName inputs =>
        unfold getFragmentF
        rw [hempty]
        cases hgp : getGqlPlugin (resolveOpDef reg opName) <;>
          simp [hgp, fragList] <;> split <;> simp
    | succ k ih =>
      intro n hk a b ha hb
      obtain ⟨a', rfl⟩ : ∃ a', a = a' + 1 := ⟨a - 1, by omega⟩
      obtain ⟨b', rfl⟩ : ∃ b', b = b' + 1 := ⟨b - 1, by omega⟩
      cases n with
      | const t v => simp [getFragmentF]
      | var t nm => simp [getFragmentF]
      | output t opName inputs =>
        have hmem : ∀ m ∈ outputCalls (sg (.output t opName inputs)),
            rank m ≤ k ∧ rank m < a' ∧ rank m < b' := by
          intro m hm
          have := hacyc _ m hm
          refine ⟨by omega, by omega, by omega⟩
        have hl : ∀ l : List Node,
            (∀ m ∈ l, rank m ≤ k ∧ rank m < a' ∧ rank m < b') →
            (fragList (getFragmentF reg sg a') l).isSome = true
            ∧ fragList (getFragmentF reg sg a') l
              = fragList (getFragmentF reg sg b') l := by
          intro l hml
          induction l with
          | nil => simp [fragList]
          | cons x xs ihl =>
            obtain ⟨hxk, hxa, hxb⟩ := hml x (by simp)
            obtain ⟨hs, he⟩ := ih x hxk a' b' hxa hxb
            obtain ⟨hs', he'⟩ := ihl (fun m hm => hml m (by simp [hm]))
            cases hv : getFragmentF reg sg a' x with
            | none => rw [hv] at hs; simp at hs
            | some v =>
              cases hvs : fragList (getFragmentF reg sg a') xs with
              | none => rw [hvs] at hs'; simp at hs'
              | some vs =>
                have hv2 : getFragmentF reg sg b' x = Option.some v := by
                  rw [← he, hv]
                have hvs2 : fragList (getFragmentF reg sg b') xs = Option.some vs := by
                  rw [← he', hvs]
                simp [fragList, hv, hvs, hv2, hvs2]
        obtain ⟨hs, he⟩ := hl _ hmem
        cases hmm : fragList (getFragmentF reg sg a')
            (outputCalls (sg (.output t opName inputs))) with
        | none => rw [hmm] at hs; simp at hs
        | some frags =>
          have hmm2 : fragList (getFragmentF reg sg b')
              (outputCalls (sg (.output t opName inputs))) = Option.some frags := by
            rw [← he, hmm]
          unfold getFragmentF
          rw [hmm, hmm2]
          cases hgp : getGqlPlugin (resolveOpDef reg opName) <;>
            simp [hgp] <;> split <;> simp
  exact main (rank n) n (Nat.le_refl _) f₁ f₂ h₁ h₂

/-- Witness for C10 on the trivial stitched graph (rank constantly 0). -/
theorem fragment_synthesis_total_witness :
    (getFragmentF demoReg emptySg 1 runNameNode).isSome = true
    ∧ getFragmentF demoReg emptySg 1 runNameNode
        = getFragmentF demoReg emptySg 2 runNameNode :=
  fragment_synthesis_total demoReg emptySg (fun _ => 0)
    (by intro n m hm; simp [emptySg, outputCalls] at hm)
    runNameNode 1 2 Nat.one_pos Nat.zero_lt_two

/-! ### Properties of the sibling-merge pass -/

theorem selMergeable_withSels_left (a s : Selection) (o : Option (List Selection)) :
    selMergeable (s.withSels o) a = selMergeable s a := by
  cases s <;> cases a <;> simp [Selection.withSels, selMergeable]

theorem selMergeable_withSels_right (a s : Selection) (o : Option (List Selection)) :
    selMergeable a (s.withSels o) = selMergeable a s := by
  cases s <;> cases a <;> simp [Selection.withSels, selMergeable]

theorem isSupported_withSels (s : Selection) (o : Option (List Selection)) :
    (s.withSels o).isSupported = s.isSupported := by
  cases s <;> simp [Selection.withSels, Selection.isSupported]

theorem selMergeable_mergeChildren_left (a t s : Selection) :
    selMergeable (mergeChildren t s) a = selMergeable t a := by
  unfold mergeChildren
  cases hs : s.selSet with
  | none => rfl
  | some u => exact selMergeable_withSels_left a t _

theorem selMergeable_mergeChildren_right (a t s : Selection) :
    selMergeable a (mergeChildren t s) = selMergeable a t := by
  unfold mergeChildren
  cases hs : s.selSet with
  | none => rfl
  | some u => exact selMergeable_withSels_right a t _

theorem isSupported_mergeChildren (t s : Selection) :
    (mergeChildren t s).isSupported = t.isSupported := by
  unfold mergeChildren
  cases hs : s.selSet with
  | none => rfl
  | some u => exact isSupported_withSels t _

theorem mergeFirst_eq_none {sel : Selection} {acc : List Selection}
    (h : ∀ x ∈ acc, selMergeable sel x = false) :
    mergeFirst sel acc = Option.none := by
  induction acc with
  | nil => rfl
  | cons x xs ih =>
    have hx := h x (by simp)
    simp [mergeFirst, hx, ih (fun z hz => h z (by simp [hz]))]

theorem insertSel_of_no_merge {sel : Selection} {acc : List Selection}
    (h : ∀ x ∈ acc, selMergeable sel x = false) :
    insertSel acc sel = acc ++ [sel] := by
  simp [insertSel, mergeFirst_eq_none h]

theorem mergeFirst_prefix_skip (sel x : Selection) (l1 l2 : List Selection)
    (h1 : ∀ z ∈ l1, selMergeable sel z = false)
    (hx : selMergeable sel x = true) :
    mergeFirst sel (l1 ++ x :: l2)
      = Option.some (l1 ++ mergeChildren x sel :: l2) := by
  induction l1 with
  | nil => simp [mergeFirst, hx]
  | cons z zs ih =>
    have hz := h1 z (by simp)
    simp [mergeFirst, hz, ih (fun w hw => h1 w (by simp [hw]))]

theorem mergeFirst_some_decomp (sel : Selection) :
    ∀ (acc res : List Selection), mergeFirst sel acc = Option.some res →
    ∃ a₁ x a₂, acc = a₁ ++ x :: a₂
      ∧ res = a₁ ++ mergeChildren x sel :: a₂
      ∧ selMergeable sel x = true
      ∧ ∀ z ∈ a₁, selMergeable sel z = false := by
  intro acc
  induction acc with
  | nil => intro res h; simp [mergeFirst] at h
  | cons x xs ih =>
    intro res h
    unfold mergeFirst at h
    by_cases hx : selMergeable sel x
    · simp [hx] at h
      exact ⟨[], x, xs, by simp, by simp [h], hx, by simp⟩
    · simp [hx] at h
      cases hm : mergeFirst sel xs with
      | none => simp [hm] at h
      | some ys =>
        simp [hm] at h
        obtain ⟨a₁, y, a₂, heq, hres, hmerge, hfirst⟩ := ih ys hm
        refine ⟨x :: a₁, y, a₂, by simp [heq], by simp [← h, hres], hmerge, ?_⟩
        intro z hz
        rcases List.mem_cons.mp hz with rfl | hz'
        · simpa using hx
        · exact hfirst z hz'

theorem zipMergePass_append (xs : List Selection) :
    ∀ (acc : List Selection) (ys : List Selection),
    zipMergePass acc (xs ++ ys)
      = match zipMergePass acc xs with
        | .error e => .error e
        | .ok acc' => zipMergePass acc' ys := by
  induction xs with
  | nil => intro acc ys; simp [zipMergePass]
  | cons x xs ih =>
    intro acc ys
    cases x with
    | other tag => simp [zipMergePass]
    | field a n args s => simp only [List.cons_append, zipMergePass]; exact ih _ ys
    | inlineFragment t s => simp only [List.cons_append, zipMergePass]; exact ih _ ys

theorem zipMergePass_no_merge (ys : List Selection) :
    ∀ acc : List Selection,
    (∀ y ∈ ys, y.isSupported = true) →
    (∀ y ∈ ys, ∀ x ∈ acc, selMergeable y x = false) →
    List.Pairwise (fun x y => selMergeable y x = false) ys →
    zipMergePass acc ys = .ok (acc ++ ys) := by
  induction ys with
  | nil => intro acc _ _ _; simp [zipMergePass]
  | cons y ys ih =>
    intro acc hsupp hacc hpair
    have hins : insertSel acc y = acc ++ [y] :=
      insertSel_of_no_merge (hacc y (by simp))
    have hstep : zipMergePass acc (y :: ys) = zipMergePass (acc ++ [y]) ys := by
      cases y with
      | other tag =>
        have hfalse := hsupp (.other tag) (by simp)
        simp [Selection.isSupported] at hfalse
      | field a n args s => simp [zipMergePass, hins]
      | inlineFragment t s => simp [zipMergePass, hins]
    rw [hstep]
    have := ih (acc ++ [y])
      (fun z hz => hsupp z (by simp [hz]))
      (fun z hz x hx => by
        rcases List.mem_append.mp hx with hx' | hx'
        · exact hacc z (by simp [hz]) x hx'
        · have hxy : x = y := by simpa using hx'
          subst hxy
          exact (List.pairwise_cons.mp hpair).1 z hz)
      (List.pairwise_cons.mp hpair).2
    rw [this]
    simp

/-- C3: during the sibling-merge pass, two mergeable siblings (same
field name, alias, arguments — or same inline-fragment type condition)
collapse into exactly one selection at the first-seen position whose
child selection set is the first's children followed by the second's,
while distinct non-mergeable selections are kept in first-seen order;
the full normalization then continues on the merged list. -/
theorem sibling_merge (l1 l2 l3 : List Selection) (s1 s2 : Selection)
    (hsupp : ∀ x ∈ l1 ++ s1 :: (l2 ++ l3), x.isSupported = true)
    (hs2supp : s2.isSupported = true)
    (hpair : List.Pairwise (fun x y => selMergeable y x = false)
      (l1 ++ s1 :: (l2 ++ l3)))
    (hm : selMergeable s2 s1 = true)
    (hfirst : ∀ x ∈ l1, selMergeable s2 x = false) :
    zipMergePass [] (l1 ++ s1 :: (l2 ++ s2 :: l3))
      = .ok (l1 ++ mergeChildren s1 s2 :: (l2 ++ l3))
    ∧ zipSelList (l1 ++ s1 :: (l2 ++ s2 :: l3))
      = zipEach (l1 ++ mergeChildren s1 s2 :: (l2 ++ l3)) := by
  have hsplit : l1 ++ s1 :: (l2 ++ s2 :: l3) = (l1 ++ s1 :: l2) ++ (s2 :: l3) := by
    simp
  -- decompose the pairwise hypothesis
  rw [List.pairwise_append] at hpair
  obtain ⟨hp1, hp2, hcross⟩ := hpair
  rw [List.pairwise_cons] at hp2
  obtain ⟨hs1rest, hp23⟩ := hp2
  rw [List.pairwise_append] at hp23
  obtain ⟨hpl2, hpl3, hcross23⟩ := hp23
  -- the prefix l1 ++ s1 :: l2 passes through without merging
  have hpre : zipMergePass [] (l1 ++ s1 :: l2) = .ok (l1 ++ s1 :: l2) := by
    have := zipMergePass_no_merge (l1 ++ s1 :: l2) []
      (fun y hy => by
        rcases List.mem_append.mp hy with hy' | hy'
        · exact hsupp y (by simp [hy'])
        · rcases List.mem_cons.mp hy' with rfl | hy''
          · exact hsupp y (by simp)
          · exact hsupp y (by simp [hy'']))
      (by simp)
      (by
        rw [List.pairwise_append]
        refine ⟨hp1, ?_, ?_⟩
        · rw [List.pairwise_cons]
          exact ⟨fun z hz => hs1rest z (by simp [hz]), hpl2⟩
        · intro x hx y hy
          exact hcross x hx y (by
            rcases List.mem_cons.mp hy with rfl | hy'
            · simp
            · simp [hy']))
    simpa using this
  have hmain : zipMergePass [] (l1 ++ s1 :: (l2 ++ s2 :: l3))
      = .ok (l1 ++ mergeChildren s1 s2 :: (l2 ++ l3)) := by
    rw [hsplit, zipMergePass_append, hpre]
    dsimp only
    -- one step: s2 merges into s1 at its first-seen position
    have hins : insertSel (l1 ++ s1 :: l2) s2
        = l1 ++ mergeChildren s1 s2 :: l2 := by
      simp [insertSel, mergeFirst_prefix_skip s2 s1 l1 l2 hfirst hm]
    have hstep : zipMergePass (l1 ++ s1 :: l2) (s2 :: l3)
        = zipMergePass (l1 ++ mergeChildren s1 s2 :: l2) l3 := by
      cases s2 with
      | other tag => simp [Selection.isSupported] at hs2supp
      | field a n args s => simp [zipMergePass, hins]
      | inlineFragment t s => simp [zipMergePass, hins]
    rw [hstep]
    have := zipMergePass_no_merge l3 (l1 ++ mergeChildren s1 s2 :: l2)
      (fun y hy => hsupp y (by simp [hy]))
      (fun y hy x hx => by
        rcases List.mem_append.mp hx with hx' | hx'
        · exact hcross x hx' y (by simp [hy])
        · rcases List.mem_cons.mp hx' with rfl | hx''
          · rw [selMergeable_mergeChildren_right]
            exact hs1rest y (by simp [hy])
          · exact hcross23 x hx'' y hy)
      hpl3
    rw [this]
    simp
  refine ⟨hmain, ?_⟩
  unfold zipSelList
  rw [hmain]

/-- Witness for C3: `[b, a { x }, a { y }, c]` merges to
`[b, a { x y }, c]` at the merge pass, children concatenated in order. -/
theorem sibling_merge_witness :
    zipMergePass []
      [Selection.field Option.none "b" [] Option.none,
       Selection.field Option.none "a" []
         (Option.some [Selection.field Option.none "x" [] Option.none]),
       Selection.field Option.none "a" []
         (Option.some [Selection.field Option.none "y" [] Option.none]),
       Selection.field Option.none "c" [] Option.none]
      = .ok
      [Selection.field Option.none "b" [] Option.none,
       mergeChildren
         (Selection.field Option.none "a" []
           (Option.some [Selection.field Option.none "x" [] Option.none]))
         (Selection.field Option.none "a" []
           (Option.some [Selection.field Option.none "y" [] Option.none])),
       Selection.field Option.none "c" [] Option.none]
    ∧ zipSelList
      [Selection.field Option.none "b" [] Option.none,
       Selection.field Option.none "a" []
         (Option.some [Selection.field Option.none "x" [] Option.none]),
       Selection.field Option.none "a" []
         (Option.some [Selection.field Option.none "y" [] Option.none]),
       Selection.field Option.none "c" [] Option.none]
      = zipEach
      [Selection.field Option.none "b" [] Option.none,
       mergeChildren
         (Selection.field Option.none "a" []
           (Option.some [Selection.field Option.none "x" [] Option.none]))
         (Selection.field Option.none "a" []
           (Option.some [Selection.field Option.none "y" [] Option.none])),
       Selection.field Option.none "c" [] Option.none] := by
  have := sibling_merge
    [Selection.field Option.none "b" [] Option.none]
    [] [Selection.field Option.none "c" [] Option.none]
    (Selection.field Option.none "a" []
      (Option.some [Selection.field Option.none "x" [] Option.none]))
    (Selection.field Option.none "a" []
      (Option.some [Selection.field Option.none "y" [] Option.none]))
    (by decide) (by decide) (by decide) (by decide) (by decide)
  simpa using this

/-! ### Characterizing the merge step's errors -/

theorem zipMergePass_error_hasOther {sels : List Selection} :
    ∀ {acc : List Selection} {e : String}, zipMergePass acc sels = .error e →
    Selection.listHasOther sels = true := by
  induction sels with
  | nil => intro acc e h; simp [zipMergePass] at h
  | cons x xs ih =>
    intro acc e h
    cases x with
    | other tag => simp [Selection.listHasOther, Selection.hasOther]
    | field a n args s =>
      simp only [zipMergePass] at h
      simp [Selection.listHasOther, ih h]
    | inlineFragment t s =>
      simp only [zipMergePass] at h
      simp [Selection.listHasOther, ih h]

theorem hasOther_getD_selSet {x : Selection} (h : x.isSupported = true) :
    x.hasOther = Selection.listHasOther (x.selSet.getD []) := by
  cases x with
  | field a n args s =>
    cases s <;> simp [Selection.hasOther, Selection.selSet, Selection.listHasOther]
  | inlineFragment t s =>
    cases s <;> simp [Selection.hasOther, Selection.selSet, Selection.listHasOther]
  | other tag => simp [Selection.isSupported] at h

theorem hasOther_withSels {x : Selection} (h : x.isSupported = true)
    (w : List Selection) :
    (x.withSels (Option.some w)).hasOther = Selection.listHasOther w := by
  cases x with
  | field a n args s => simp [Selection.withSels, Selection.hasOther]
  | inlineFragment t s => simp [Selection.withSels, Selection.hasOther]
  | other tag => simp [Selection.isSupported] at h

theorem listHasOther_append (xs ys : List Selection) :
    Selection.listHasOther (xs ++ ys)
      = (Selection.listHasOther xs || Selection.listHasOther ys) := by
  induction xs with
  | nil => simp [Selection.listHasOther]
  | cons x xs ih => simp [Selection.listHasOther, ih, Bool.or_assoc]

theorem hasOther_mergeChildren {t s : Selection}
    (ht : t.isSupported = true) (hs : s.isSupported = true) :
    (mergeChildren t s).hasOther = (t.hasOther || s.hasOther) := by
  unfold mergeChildren
  cases hsel : s.selSet with
  | none =>
    have : s.hasOther = false := by
      rw [hasOther_getD_selSet hs, hsel]
      rfl
    simp [this]
  | some u =>
    rw [hasOther_withSels ht, listHasOther_append,
      ← hasOther_getD_selSet ht, hasOther_getD_selSet hs, hsel]
    rfl

theorem supported_insertSel {acc : List Selection} {sel : Selection}
    (hsel : sel.isSupported = true)
    (hacc : ∀ x ∈ acc, x.isSupported = true) :
    ∀ x ∈ insertSel acc sel, x.isSupported = true := by
  unfold insertSel
  cases hmf : mergeFirst sel acc with
  | none =>
    intro x hx
    rcases List.mem_append.mp hx with hx' | hx'
    · exact hacc x hx'
    · have hxe : x = sel := by simpa using hx'
      rw [hxe]
      exact hsel
  | some res =>
    obtain ⟨a₁, y, a₂, heq, hres, _, _⟩ := mergeFirst_some_decomp sel acc res hmf
    subst heq hres
    intro x hx
    simp only [Option.getD_some] at hx
    rcases List.mem_append.mp hx with hx' | hx'
    · exact hacc x (by simp [hx'])
    · rcases List.mem_cons.mp hx' with rfl | hx''
      · rw [isSupported_mergeChildren]
        exact hacc y (by simp)
      · exact hacc x (by simp [hx''])

theorem listHasOther_insertSel {acc : List Selection} {sel : Selection}
    (hsel : sel.isSupported = true)
    (hacc : ∀ x ∈ acc, x.isSupported = true) :
    Selection.listHasOther (insertSel acc sel)
      = (Selection.listHasOther acc || sel.hasOther) := by
  unfold insertSel
  cases hmf : mergeFirst sel acc with
  | none =>
    simp [listHasOther_append, Selection.listHasOther]
  | some res =>
    obtain ⟨a₁, y, a₂, heq, hres, _, _⟩ := mergeFirst_some_decomp sel acc res hmf
    subst heq hres
    have hy : y.isSupported = true := hacc y (by simp)
    simp only [Option.getD_some, listHasOther_append, Selection.listHasOther,
      hasOther_mergeChildren hy hsel]
    cases Selection.listHasOther a₁ <;> cases y.hasOther <;>
      cases sel.hasOther <;> cases Selection.listHasOther a₂ <;> rfl

theorem zipMergePass_ok_props {sels : List Selection} :
    ∀ {acc out : List Selection}, zipMergePass acc sels = .ok out →
    (∀ x ∈ acc, x.isSupported = true) →
    (∀ x ∈ sels, x.isSupported = true)
    ∧ (∀ x ∈ out, x.isSupported = true)
    ∧ Selection.listHasOther out
      = (Selection.listHasOther acc || Selection.listHasOther sels) := by
  induction sels with
  | nil =>
    intro acc out h hacc
    simp [zipMergePass] at h
    subst h
    exact ⟨by simp, hacc, by simp [Selection.listHasOther]⟩
  | cons x xs ih =>
    intro acc out h hacc
    cases x with
    | other tag => simp [zipMergePass] at h
    | field a n args s =>
      simp only [zipMergePass] at h
      have hsel : (Selection.field a n args s).isSupported = true := rfl
      obtain ⟨hxs, hout, hlho⟩ := ih h (supported_insertSel hsel hacc)
      refine ⟨?_, hout, ?_⟩
      · intro z hz
        rcases List.mem_cons.mp hz with rfl | hz'
        · rfl
        · exact hxs z hz'
      · rw [hlho, listHasOther_insertSel hsel hacc]
        simp [Selection.listHasOther, Bool.or_assoc]
    | inlineFragment t s =>
      simp only [zipMergePass] at h
      have hsel : (Selection.inlineFragment t s).isSupported = true := rfl
      obtain ⟨hxs, hout, hlho⟩ := ih h (supported_insertSel hsel hacc)
      refine ⟨?_, hout, ?_⟩
      · intro z hz
        rcases List.mem_cons.mp hz with rfl | hz'
        · rfl
        · exact hxs z hz'
      · rw [hlho, listHasOther_insertSel hsel hacc]
        simp [Selection.listHasOther, Bool.or_assoc]

theorem zipMergePass_ok_of_supported (sels : List Selection) :
    ∀ acc : List Selection, (∀ x ∈ sels, x.isSupported = true) →
    ∃ out, zipMergePass acc sels = .ok out := by
  induction sels with
  | nil => intro acc _; exact ⟨acc, rfl⟩
  | cons x xs ih =>
    intro acc hsupp
    cases x with
    | other tag =>
      have := hsupp (.other tag) (by simp)
      simp [Selection.isSupported] at this
    | field a n args s =>
      obtain ⟨out, hout⟩ := ih (insertSel acc (.field a n args s))
        (fun z hz => hsupp z (by simp [hz]))
      exact ⟨out, by simpa [zipMergePass] using hout⟩
    | inlineFragment t s =>
      obtain ⟨out, hout⟩ := ih (insertSel acc (.inlineFragment t s))
        (fun z hz => hsupp z (by simp [hz]))
      exact ⟨out, by simpa [zipMergePass] using hout⟩

theorem zipSelList_eq_error {sels : List Selection} {e : String}
    (h : zipMergePass [] sels = .error e) : zipSelList sels = .error e := by
  unfold zipSelList
  split
  · rename_i e' he
    rw [h] at he
    cases he
    rfl
  · rename_i merged hm
    rw [h] at hm
    cases hm

theorem zipSelList_eq_ok {sels merged : List Selection}
    (h : zipMergePass [] sels = .ok merged) :
    zipSelList sels = zipEach merged := by
  unfold zipSelList
  split
  · rename_i e' he
    rw [h] at he
    cases he
  · rename_i merged' hm
    rw [h] at hm
    cases hm
    rfl

theorem zipOne_of_none {x : Selection} (h : x.selSet = Option.none) :
    zipOne x = .ok x := by
  unfold zipOne
  split
  · rfl
  · rename_i s hs
    rw [h] at hs
    cases hs

theorem zipOne_of_some {x : Selection} {s : List Selection}
    (h : x.selSet = Option.some s) :
    zipOne x
      = match zipSelList s with
        | .error e => .error e
        | .ok s' => .ok (x.withSels (Option.some s')) := by
  unfold zipOne
  split
  · rename_i hs
    rw [h] at hs
    cases hs
  · rename_i s' hs
    rw [h] at hs
    cases hs
    rfl

theorem zipEach_ok_iff (l : List Selection) :
    (∃ out, zipEach l = .ok out) ↔ ∀ x ∈ l, ∃ y, zipOne x = .ok y := by
  induction l with
  | nil => simp [zipEach]
  | cons x xs ih =>
    constructor
    · rintro ⟨out, hout⟩
      simp only [zipEach] at hout
      cases hx : zipOne x with
      | error e => rw [hx] at hout; cases hout
      | ok y =>
        rw [hx] at hout
        cases hxs : zipEach xs with
        | error e => rw [hxs] at hout; cases hout
        | ok ys =>
          intro z hz
          rcases List.mem_cons.mp hz with rfl | hz'
          · exact ⟨y, hx⟩
          · exact (ih.mp ⟨ys, hxs⟩) z hz'
    · intro hall
      obtain ⟨y, hy⟩ := hall x (by simp)
      obtain ⟨ys, hys⟩ := ih.mpr (fun z hz => hall z (by simp [hz]))
      exact ⟨y :: ys, by simp [zipEach, hy, hys]⟩

theorem listHasOther_eq_false_iff (l : List Selection) :
    Selection.listHasOther l = false ↔ ∀ x ∈ l, x.hasOther = false := by
  induction l with
  | nil => simp [Selection.listHasOther]
  | cons x xs ih => simp [Selection.listHasOther, ih]

/-- The merge algorithm succeeds exactly when no selection at any depth
is of an unsupported kind. -/
theorem zipSelList_ok_iff (sels : List Selection) :
    (∃ out, zipSelList sels = .ok out)
      ↔ Selection.listHasOther sels = false := by
  have general : ∀ n : Nat, ∀ sels : List Selection, Selection.sizeList sels ≤ n →
      ((∃ out, zipSelList sels = .ok out)
        ↔ Selection.listHasOther sels = false) := by
    intro n
    induction n with
    | zero =>
      intro sels hsz
      cases sels with
      | nil =>
        constructor
        · intro _; rfl
        · intro _
          refine ⟨[], ?_⟩
          rw [zipSelList_eq_ok (show zipMergePass [] [] = .ok [] from rfl)]
          simp [zipEach]
      | cons x xs =>
        exfalso
        have := Selection.size_pos x
        simp [Selection.sizeList] at hsz
        omega
    | succ n ih =>
      intro sels hsz
      cases hzm : zipMergePass [] sels with
      | error e =>
        rw [zipSelList_eq_error hzm]
        simp [zipMergePass_error_hasOther hzm]
      | ok merged =>
        rw [zipSelList_eq_ok hzm]
        obtain ⟨htop, hmsup, hlho⟩ := zipMergePass_ok_props hzm (by simp)
        simp only [Selection.listHasOther] at hlho
        have hmerged_size : Selection.sizeList merged ≤ Selection.sizeList sels := by
          have := zipMergePass_size hzm
          simpa [Selection.sizeList] using this
        have hone : ∀ x ∈ merged,
            ((∃ y, zipOne x = .ok y) ↔ x.hasOther = false) := by
          intro x hx
          have hxsup := hmsup x hx
          cases hxs : x.selSet with
          | none =>
            rw [zipOne_of_none hxs]
            have : x.hasOther = false := by
              rw [hasOther_getD_selSet hxsup, hxs]
              rfl
            simp [this]
          | some s =>
            have hs_size : Selection.sizeList s ≤ n := by
              have h1 := Selection.selSet_size hxs
              have h2 := Selection.size_of_mem hx
              omega
            have hrec := ih s hs_size
            rw [zipOne_of_some hxs]
            have hx_other : x.hasOther = Selection.listHasOther s := by
              rw [hasOther_getD_selSet hxsup, hxs]
              rfl
            rw [hx_other, ← hrec]
            constructor
            · rintro ⟨y, hy⟩
              cases hz : zipSelList s with
              | error e => rw [hz] at hy; cases hy
              | ok s' => exact ⟨s', rfl⟩
            · rintro ⟨s', hs'⟩
              exact ⟨x.withSels (Option.some s'), by rw [hs']⟩
        have hlho' : Selection.listHasOther sels = Selection.listHasOther merged := by
          rw [hlho]
          simp
        rw [zipEach_ok_iff, hlho', listHasOther_eq_false_iff]
        constructor
        · intro hall x hx
          exact (hone x hx).mp (hall x hx)
        · intro hall x hx
          exact (hone x hx).mpr (hall x hx)
  exact general (Selection.sizeList sels) sels (Nat.le_refl _)

/-- C7: the merge/normalization step fails exactly when the assembled
document has more than one top-level definition, or its single top-level
definition is not an operation definition, or any selection reached
during merging is neither a field nor an inline fragment; documents free
of these conditions zip without error.  (An assembled document always
has at least one definition.) -/
theorem zip_error_conditions (doc : Document) (d : Definition)
    (ds : List Definition) (hdoc : doc.definitions = d :: ds) :
    (∃ out, zipGqlDoc doc = .ok out)
      ↔ (ds = [] ∧ d.isOperation = true ∧ d.selsHaveOther = false) := by
  unfold zipGqlDoc
  rw [hdoc]
  cases ds with
  | cons d2 ds' =>
    simp only [List.length_cons]
    rw [if_pos (by omega)]
    simp
  | nil =>
    simp only [List.length_cons, List.length_nil]
    rw [if_neg (by omega)]
    cases d with
    | fragmentDef nm tc sels => simp [Definition.isOperation]
    | operation opType nm sels =>
      simp only [Definition.isOperation, Definition.selsHaveOther]
      cases hz : zipSelList sels with
      | error e =>
        have : ¬ (∃ out, zipSelList sels = .ok out) := by
          rintro ⟨out, hout⟩
          rw [hz] at hout
          cases hout
        rw [zipSelList_ok_iff] at this
        simp only [Bool.not_eq_false] at this
        simp [this]
      | ok sels' =>
        have : Selection.listHasOther sels = false :=
          (zipSelList_ok_iff sels).mp ⟨sels', hz⟩
        simp [this]

/-- Witness for C7 on a one-definition operation document free of
unsupported selections. -/
theorem zip_error_conditions_witness :
    (∃ out, zipGqlDoc
        ⟨[Definition.operation "query" Option.none
          [Selection.field Option.none "a" [] Option.none]]⟩ = .ok out)
      ↔ (([] : List Definition) = []
          ∧ (Definition.operation "query" Option.none
              [Selection.field Option.none "a" [] Option.none]).isOperation = true
          ∧ (Definition.operation "query" Option.none
              [Selection.field Option.none "a" [] Option.none]).selsHaveOther
              = false) :=
  zip_error_conditions
    ⟨[Definition.operation "query" Option.none
      [Selection.field Option.none "a" [] Option.none]]⟩
    (Definition.operation "query" Option.none
      [Selection.field Option.none "a" [] Option.none])
    [] rfl

/-! ### Idempotence of the zip at the tree level -/

theorem mergeFirst_none_all {sel : Selection} {acc : List Selection}
    (h : mergeFirst sel acc = Option.none) :
    ∀ x ∈ acc, selMergeable sel x = false := by
  induction acc with
  | nil => intro x hx; simp at hx
  | cons y ys ih =>
    intro x hx
    unfold mergeFirst at h
    by_cases hy : selMergeable sel y
    · simp [hy] at h
    · rcases List.mem_cons.mp hx with rfl | hx'
      · simpa using hy
      · cases hm : mergeFirst sel ys with
        | none => exact ih hm x hx'
        | some zs => simp [hy, hm] at h

theorem pairwise_replace_mergeChildren {a₁ a₂ : List Selection}
    {x sel : Selection}
    (h : List.Pairwise (fun x y => selMergeable y x = false) (a₁ ++ x :: a₂)) :
    List.Pairwise (fun x y => selMergeable y x = false)
      (a₁ ++ mergeChildren x sel :: a₂) := by
  rw [List.pairwise_append] at h ⊢
  obtain ⟨h1, h2, hcross⟩ := h
  rw [List.pairwise_cons] at h2 ⊢
  refine ⟨h1, ⟨?_, h2.2⟩, ?_⟩
  · intro z hz
    rw [selMergeable_mergeChildren_right]
    exact h2.1 z hz
  · intro u hu v hv
    rcases List.mem_cons.mp hv with rfl | hv'
    · rw [selMergeable_mergeChildren_left]
      exact hcross u hu x (by simp)
    · exact hcross u hu v (by simp [hv'])

theorem pairwise_insertSel {acc : List Selection} {sel : Selection}
    (h : List.Pairwise (fun x y => selMergeable y x = false) acc) :
    List.Pairwise (fun x y => selMergeable y x = false) (insertSel acc sel) := by
  unfold insertSel
  cases hmf : mergeFirst sel acc with
  | none =>
    simp only [Option.getD_none]
    rw [List.pairwise_append]
    refine ⟨h, by simp, ?_⟩
    intro x hx y hy
    rcases List.mem_cons.mp hy with rfl | hy'
    · exact mergeFirst_none_all hmf x hx
    · simp at hy'
  | some res =>
    obtain ⟨a₁, x, a₂, heq, hres, _, _⟩ := mergeFirst_some_decomp sel acc res hmf
    subst heq hres
    simp only [Option.getD_some]
    exact pairwise_replace_mergeChildren h

theorem zipMergePass_pairwise {sels : List Selection} :
    ∀ {acc out : List Selection}, zipMergePass acc sels = .ok out →
    List.Pairwise (fun x y => selMergeable y x = false) acc →
    List.Pairwise (fun x y => selMergeable y x = false) out := by
  induction sels with
  | nil =>
    intro acc out h hacc
    simp [zipMergePass] at h
    subst h
    exact hacc
  | cons x xs ih =>
    intro acc out h hacc
    cases x with
    | other tag => simp [zipMergePass] at h
    | field a n args s =>
      simp only [zipMergePass] at h
      exact ih h (pairwise_insertSel hacc)
    | inlineFragment t s =>
      simp only [zipMergePass] at h
      exact ih h (pairwise_insertSel hacc)

theorem zipEach_forall2 {l out : List Selection} (h : zipEach l = .ok out) :
    List.Forall₂ (fun x y => zipOne x = .ok y) l out := by
  induction l generalizing out with
  | nil =>
    simp [zipEach] at h
    subst h
    exact List.Forall₂.nil
  | cons x xs ih =>
    simp only [zipEach] at h
    cases hx : zipOne x with
    | error e => rw [hx] at h; cases h
    | ok y =>
      rw [hx] at h
      cases hxs : zipEach xs with
      | error e => rw [hxs] at h; cases h
      | ok ys =>
        rw [hxs] at h
        cases h
        exact List.Forall₂.cons hx (ih hxs)

theorem zipOne_cases {x y : Selection} (h : zipOne x = .ok y) :
    (x.selSet = Option.none ∧ y = x)
    ∨ ∃ s s', x.selSet = Option.some s ∧ zipSelList s = .ok s'
        ∧ y = x.withSels (Option.some s') := by
  cases hs : x.selSet with
  | none =>
    rw [zipOne_of_none hs] at h
    cases h
    exact Or.inl ⟨rfl, rfl⟩
  | some s =>
    rw [zipOne_of_some hs] at h
    cases hz : zipSelList s with
    | error e => rw [hz] at h; cases h
    | ok s' =>
      rw [hz] at h
      cases h
      exact Or.inr ⟨s, s', rfl, hz, rfl⟩

theorem zipOne_mergeable {x y : Selection} (h : zipOne x = .ok y) :
    (∀ a, selMergeable a y = selMergeable a x)
    ∧ (∀ a, selMergeable y a = selMergeable x a)
    ∧ y.isSupported = x.isSupported := by
  rcases zipOne_cases h with ⟨_, rfl⟩ | ⟨s, s', _, _, rfl⟩
  · exact ⟨fun a => rfl, fun a => rfl, rfl⟩
  · exact ⟨fun a => selMergeable_withSels_right a x _,
      fun a => selMergeable_withSels_left a x _, isSupported_withSels x _⟩

theorem forall2_mem_right {l out : List Selection}
    (hf : List.Forall₂ (fun x y => zipOne x = .ok y) l out) :
    ∀ y ∈ out, ∃ x ∈ l, zipOne x = .ok y := by
  induction hf with
  | nil => intro y hy; simp at hy
  | @cons u v us vs huv _ ih =>
    intro y hy
    rcases List.mem_cons.mp hy with rfl | hy'
    · exact ⟨u, by simp, huv⟩
    · obtain ⟨a, ha, hab⟩ := ih y hy'
      exact ⟨a, by simp [ha], hab⟩

theorem pairwise_of_forall2 {l out : List Selection}
    (hf : List.Forall₂ (fun x y => zipOne x = .ok y) l out)
    (hp : List.Pairwise (fun x y => selMergeable y x = false) l) :
    List.Pairwise (fun x y => selMergeable y x = false) out := by
  induction hf with
  | nil => exact List.Pairwise.nil
  | @cons x y xs ys hxy hrest ih =>
    rw [List.pairwise_cons] at hp ⊢
    refine ⟨?_, ih hp.2⟩
    intro b hb
    obtain ⟨i, hi, hbi⟩ := forall2_mem_right hrest b hb
    rw [(zipOne_mergeable hbi).2.1, (zipOne_mergeable hxy).1]
    exact hp.1 i hi

theorem supported_of_forall2 {l out : List Selection}
    (hf : List.Forall₂ (fun x y => zipOne x = .ok y) l out)
    (hs : ∀ x ∈ l, x.isSupported = true) :
    ∀ y ∈ out, y.isSupported = true := by
  induction hf with
  | nil => intro y hy; simp at hy
  | @cons x y xs ys hxy hrest ih =>
    intro z hz
    rcases List.mem_cons.mp hz with rfl | hz'
    · rw [(zipOne_mergeable hxy).2.2]
      exact hs x (by simp)
    · exact ih (fun w hw => hs w (by simp [hw])) z hz'

theorem zipEach_of_fixed {l : List Selection}
    (h : ∀ y ∈ l, zipOne y = .ok y) : zipEach l = .ok l := by
  induction l with
  | nil => simp [zipEach]
  | cons x xs ih =>
    have hx := h x (by simp)
    have hxs := ih (fun y hy => h y (by simp [hy]))
    simp [zipEach, hx, hxs]

theorem withSels_withSels (x : Selection) (o o' : Option (List Selection)) :
    (x.withSels o).withSels o' = x.withSels o' := by
  cases x <;> simp [Selection.withSels]

theorem selSet_withSels {x : Selection} (h : x.isSupported = true)
    (o : Option (List Selection)) : (x.withSels o).selSet = o := by
  cases x with
  | field a n args s => simp [Selection.withSels, Selection.selSet]
  | inlineFragment t s => simp [Selection.withSels, Selection.selSet]
  | other tag => simp [Selection.isSupported] at h

theorem withSels_selSet {x : Selection} {s : List Selection}
    (h : x.selSet = Option.some s) : x.withSels (Option.some s) = x := by
  cases x with
  | field a n args sels => simp [Selection.selSet] at h; simp [Selection.withSels, h]
  | inlineFragment t sels => simp [Selection.selSet] at h; simp [Selection.withSels, h]
  | other tag => simp [Selection.selSet] at h

/-- Zipping an already-zipped selection list is a no-op. -/
theorem zipSelList_idem :
    ∀ (sels out : List Selection), zipSelList sels = .ok out →
    zipSelList out = .ok out := by
  have general : ∀ n : Nat, ∀ sels out : List Selection,
      Selection.sizeList sels ≤ n → zipSelList sels = .ok out →
      zipSelList out = .ok out := by
    intro n
    induction n with
    | zero =>
      intro sels out hsz h
      cases sels with
      | nil =>
        rw [zipSelList_eq_ok (show zipMergePass [] [] = .ok [] from rfl)] at h
        simp [zipEach] at h
        subst h
        rw [zipSelList_eq_ok (show zipMergePass [] [] = .ok [] from rfl)]
        simp [zipEach]
      | cons x xs =>
        exfalso
        have := Selection.size_pos x
        simp [Selection.sizeList] at hsz
        omega
    | succ n ih =>
      intro sels out hsz h
      cases hzm : zipMergePass [] sels with
      | error e => rw [zipSelList_eq_error hzm] at h; cases h
      | ok merged =>
        rw [zipSelList_eq_ok hzm] at h
        obtain ⟨_, hmsup, _⟩ := zipMergePass_ok_props hzm (by simp)
        have hpair := zipMergePass_pairwise hzm List.Pairwise.nil
        have hf2 := zipEach_forall2 h
        have hout_sup := supported_of_forall2 hf2 hmsup
        have hout_pair := pairwise_of_forall2 hf2 hpair
        have hmerged_size : Selection.sizeList merged ≤ Selection.sizeList sels := by
          have := zipMergePass_size hzm
          simpa [Selection.sizeList] using this
        -- the merge pass is the identity on the zipped output
        have hpass : zipMergePass [] out = .ok out := by
          have := zipMergePass_no_merge out [] hout_sup (by simp) hout_pair
          simpa using this
        -- every element of the output is a fixed point of zipOne
        have hfixed : ∀ y ∈ out, zipOne y = .ok y := by
          intro y hy
          obtain ⟨x, hx, hxy⟩ := forall2_mem_right hf2 y hy
          rcases zipOne_cases hxy with ⟨hnone, rfl⟩ | ⟨s, s', hs, hz, rfl⟩
          · exact zipOne_of_none hnone
          · have hxsup := hmsup x hx
            have hysel : (x.withSels (Option.some s')).selSet = Option.some s' :=
              selSet_withSels hxsup _
            have hs_size : Selection.sizeList s ≤ n := by
              have h1 := Selection.selSet_size hs
              have h2 := Selection.size_of_mem hx
              omega
            have hidem := ih s s' hs_size hz
            rw [zipOne_of_some hysel, hidem]
            dsimp only
            rw [withSels_withSels]
        rw [zipSelList_eq_ok hpass]
        exact zipEach_of_fixed hfixed
  intro sels out h
  exact general (Selection.sizeList sels) sels out (Nat.le_refl _) h

/-- Zipping an already-zipped document is a no-op. -/
theorem zipGqlDoc_idem {doc doc' : Document}
    (h : zipGqlDoc doc = .ok doc') : zipGqlDoc doc' = .ok doc' := by
  unfold zipGqlDoc at h ⊢
  by_cases hlen : doc.definitions.length > 1
  · rw [if_pos hlen] at h
    cases h
  · rw [if_neg hlen] at h
    cases hdefs : doc.definitions with
    | nil => rw [hdefs] at h; cases h
    | cons d ds =>
      rw [hdefs] at h
      dsimp only at h
      cases d with
      | fragmentDef nm tc sels => cases h
      | operation opType nm sels =>
        dsimp only at h
        cases hz : zipSelList sels with
        | error e => rw [hz] at h; cases h
        | ok sels' =>
          rw [hz] at h
          cases h
          simp only [List.length_cons, List.length_nil]
          rw [if_neg (by omega)]
          rw [zipSelList_idem sels sels' hz]

/-! ### Lexer/renderer roundtrip -/

theorem spanCh_eq (p : Char → Bool) (u v : List Char)
    (hu : u.all p = true)
    (hv : match v with | [] => True | c :: _ => p c = false) :
    spanCh p (u ++ v) = (u, v) := by
  induction u with
  | nil =>
    cases v with
    | nil => rfl
    | cons c cs => simp at hv; simp [spanCh, hv]
  | cons c cs ih =>
    simp only [List.all_cons, Bool.and_eq_true] at hu
    have hrec := ih hu.2
    simp [spanCh, hu.1, hrec]

theorem nameStart_not_ignored {c : Char} (h : isNameStartCh c = true) :
    isIgnoredCh c = false := by
  by_cases h1 : c = ' '
  · subst h1; exact absurd h (by decide)
  by_cases h2 : c = '\t'
  · subst h2; exact absurd h (by decide)
  by_cases h3 : c = '\n'
  · subst h3; exact absurd h (by decide)
  by_cases h4 : c = '\r'
  · subst h4; exact absurd h (by decide)
  by_cases h5 : c = ','
  · subst h5; exact absurd h (by decide)
  simp [isIgnoredCh, h1, h2, h3, h4, h5]

theorem digit_facts {c : Char} (h : isDigitCh c = true) :
    isIgnoredCh c = false ∧ isNameStartCh c = false := by
  simp only [isDigitCh, Bool.or_eq_true, decide_eq_true_eq, or_assoc] at h
  rcases h with rfl | rfl | rfl | rfl | rfl | rfl | rfl | rfl | rfl | rfl <;>
    exact ⟨by decide, by decide⟩

theorem punct_facts {c : Char} (h : isPunctCh c = true) :
    isIgnoredCh c = false ∧ isNameStartCh c = false ∧ isDigitCh c = false
    ∧ ¬(c = '-') ∧ ¬(c = '"') ∧ ¬(c = '.') := by
  simp only [isPunctCh, lbraceCh, rbraceCh, Bool.or_eq_true, decide_eq_true_eq,
    or_assoc] at h
  rcases h with rfl | rfl | rfl | rfl | rfl <;>
    exact ⟨by decide, by decide, by decide, by decide, by decide, by decide⟩

theorem lexToks_space {cs : List Char} {ts : List Tok} {fuel : Nat}
    (h : lexToks fuel cs = .ok ts) :
    lexToks (fuel + 1) (' ' :: cs) = .ok ts := by
  simp [lexToks, isIgnoredCh, h]

theorem lexToks_name {c : Char} {body cs : List Char} {ts : List Tok} {fuel : Nat}
    (hc : isNameStartCh c = true) (hbody : body.all isNameCh = true)
    (hnext : match cs with | [] => True | d :: _ => isNameCh d = false)
    (h : lexToks fuel cs = .ok ts) :
    lexToks (fuel + 1) (c :: (body ++ cs))
      = .ok (Tok.name (String.mk (c :: body)) :: ts) := by
  have h1 := nameStart_not_ignored hc
  simp [lexToks, h1, hc, spanCh_eq isNameCh body cs hbody hnext, h]

theorem lexToks_int_pos {c : Char} {body cs : List Char} {ts : List Tok} {fuel : Nat}
    (hc : isDigitCh c = true) (hbody : body.all isDigitCh = true)
    (hnext : match cs with | [] => True | d :: _ => isDigitCh d = false)
    (h : lexToks fuel cs = .ok ts) :
    lexToks (fuel + 1) (c :: (body ++ cs))
      = .ok (Tok.int (String.mk (c :: body)) :: ts) := by
  obtain ⟨h1, h2⟩ := digit_facts hc
  simp [lexToks, h1, h2, hc, spanCh_eq isDigitCh body cs hbody hnext, h]

theorem lexToks_int_neg {d : Char} {body cs : List Char} {ts : List Tok} {fuel : Nat}
    (hd : isDigitCh d = true) (hbody : body.all isDigitCh = true)
    (hnext : match cs with | [] => True | e :: _ => isDigitCh e = false)
    (h : lexToks fuel cs = .ok ts) :
    lexToks (fuel + 1) ('-' :: d :: (body ++ cs))
      = .ok (Tok.int (String.mk ('-' :: d :: body)) :: ts) := by
  simp [lexToks, (by decide : isIgnoredCh '-' = false),
    (by decide : isNameStartCh '-' = false), (by decide : isDigitCh '-' = false),
    hd, spanCh_eq isDigitCh body cs hbody hnext, h]

theorem lexToks_str {body cs : List Char} {ts : List Tok} {fuel : Nat}
    (hbody : body.all isStrCh = true)
    (h : lexToks fuel cs = .ok ts) :
    lexToks (fuel + 1) ('"' :: (body ++ '"' :: cs))
      = .ok (Tok.str (String.mk body) :: ts) := by
  simp [lexToks, (by decide : isIgnoredCh '"' = false),
    (by decide : isNameStartCh '"' = false), (by decide : isDigitCh '"' = false),
    spanCh_eq isStrCh body ('"' :: cs) hbody (by simp [isStrCh]), h]

theorem lexToks_spread {cs : List Char} {ts : List Tok} {fuel : Nat}
    (h : lexToks fuel cs = .ok ts) :
    lexToks (fuel + 1) ('.' :: '.' :: '.' :: cs) = .ok (Tok.spread :: ts) := by
  simp [lexToks, (by decide : isIgnoredCh '.' = false),
    (by decide : isNameStartCh '.' = false), (by decide : isDigitCh '.' = false), h]

theorem lexToks_punct {c : Char} {cs : List Char} {ts : List Tok} {fuel : Nat}
    (hc : isPunctCh c = true) (h : lexToks fuel cs = .ok ts) :
    lexToks (fuel + 1) (c :: cs) = .ok (Tok.punct c :: ts) := by
  obtain ⟨h1, h2, h3, h4, h5, h6⟩ := punct_facts hc
  simp [lexToks, h1, h2, h3, h4, h5, h6, hc, h]

theorem tokText_length_pos {t : Tok} (h : tokWf t = true) :
    1 ≤ t.text.data.length := by
  cases t with
  | name s =>
    simp only [tokWf, nameWf] at h
    cases hs : s.data with
    | nil => rw [hs] at h; simp at h
    | cons c cs => simp [Tok.text, hs]
  | int s =>
    simp only [tokWf, intWf] at h
    cases hs : s.data with
    | nil => rw [hs] at h; simp at h
    | cons c cs => simp [Tok.text, hs]
  | str s => simp [Tok.text, String.data_append]
  | punct c => simp [Tok.text, String.singleton]
  | spread => simp [Tok.text]

/-- The first character of a token's text, for the space-insertion
analysis: word tokens begin with a name-start character, a digit, a minus
sign or a quote; none of these begins a punctuator or spread token. -/
theorem lexTok_step {t : Tok} {cs : List Char} {ts : List Tok} {fuel : Nat}
    (hw : tokWf t = true)
    (hnext : match t, cs with
      | .name _, d :: _ => isNameCh d = false
      | .int _, d :: _ => isDigitCh d = false
      | _, _ => True)
    (h : lexToks fuel cs = .ok ts) :
    lexToks (fuel + 1) (t.text.data ++ cs) = .ok (t :: ts) := by
  cases t with
  | name s =>
    simp only [tokWf, nameWf] at hw
    cases hs : s.data with
    | nil => rw [hs] at hw; simp at hw
    | cons c body =>
      simp only [hs] at hw
      simp only [Bool.and_eq_true] at hw
      have hmk : String.mk (c :: body) = s := by
        cases s
        simp at hs
        rw [hs]
      show lexToks (fuel + 1) (s.data ++ cs) = .ok (Tok.name s :: ts)
      rw [hs, ← hmk]
      exact lexToks_name hw.1 hw.2 (by cases cs <;> simpa using hnext) h
  | int s =>
    simp only [tokWf, intWf] at hw
    cases hs : s.data with
    | nil => rw [hs] at hw; simp at hw
    | cons c body =>
      simp only [hs] at hw
      have hmk : String.mk (c :: body) = s := by
        cases s
        simp at hs
        rw [hs]
      show lexToks (fuel + 1) (s.data ++ cs) = .ok (Tok.int s :: ts)
      rw [hs, ← hmk]
      by_cases hneg : c = '-'
      · subst hneg
        rw [if_pos rfl] at hw
        simp only [Bool.and_eq_true] at hw
        cases body with
        | nil => simp at hw
        | cons d rest =>
          obtain ⟨_, hall⟩ := hw
          simp only [List.all_cons, Bool.and_eq_true] at hall
          exact lexToks_int_neg hall.1 hall.2 (by cases cs <;> simpa using hnext) h
      · rw [if_neg hneg] at hw
        simp only [Bool.and_eq_true] at hw
        exact lexToks_int_pos hw.1 hw.2 (by cases cs <;> simpa using hnext) h
  | str s =>
    show lexToks (fuel + 1) (("\"" ++ s ++ "\"").data ++ cs) = .ok (Tok.str s :: ts)
    have hdata : ("\"" ++ s ++ "\"").data ++ cs = '"' :: (s.data ++ '"' :: cs) := by
      simp [String.data_append]
    rw [hdata]
    have hbody : s.data.all isStrCh = true := hw
    have hres := lexToks_str hbody h
    have hmk : String.mk s.data = s := by cases s; rfl
    rw [hmk] at hres
    exact hres
  | punct c => exact lexToks_punct hw h
  | spread => exact lexToks_spread h

theorem renderToks_cons_data (t : Tok) (rest : List Tok) :
    ∃ u, (renderToks (t :: rest)).data = t.text.data ++ u := by
  cases rest with
  | nil => exact ⟨[], by simp [renderToks]⟩
  | cons t' rest' =>
    refine ⟨(if t.isWord && (t'.isWord || t' == Tok.spread) then " " else "").data
      ++ (renderToks (t' :: rest')).data, ?_⟩
    simp [renderToks, String.data_append]

/-- Lexing the stripped rendering of a well-formed token stream recovers
exactly that stream. -/
theorem lexToks_render (ts : List Tok) :
    (∀ t ∈ ts, tokWf t = true) →
    ∀ fuel, (renderToks ts).data.length < fuel →
    lexToks fuel ((renderToks ts).data) = .ok ts := by
  induction ts with
  | nil =>
    intro _ fuel hf
    obtain ⟨f, rfl⟩ : ∃ f, fuel = f + 1 := ⟨fuel - 1, by omega⟩
    simp [renderToks, lexToks]
  | cons t rest ih =>
    intro h fuel hf
    have hwt : tokWf t = true := h t (by simp)
    have hlen := tokText_length_pos hwt
    cases rest with
    | nil =>
      have hrdata : (renderToks [t]).data = t.text.data ++ [] := by
        simp [renderToks]
      rw [hrdata] at hf ⊢
      simp only [List.length_append, List.length_nil] at hf
      obtain ⟨f, rfl⟩ : ∃ f, fuel = f + 2 := ⟨fuel - 2, by omega⟩
      have hempty : lexToks (f + 1) [] = .ok [] := by simp [lexToks]
      exact lexTok_step hwt (by cases t <;> simp) hempty
    | cons t' rest' =>
      have hwt' : tokWf t' = true := h t' (by simp)
      have hlen' := tokText_length_pos hwt'
      have hrdata : (renderToks (t :: t' :: rest')).data
          = t.text.data
            ++ ((if t.isWord && (t'.isWord || t' == Tok.spread) then " " else "").data
              ++ (renderToks (t' :: rest')).data) := by
        simp [renderToks, String.data_append]
      obtain ⟨u, hu⟩ := renderToks_cons_data t' rest'
      have hlenrest : t'.text.data.length ≤ (renderToks (t' :: rest')).data.length := by
        rw [hu]
        simp
      by_cases hb : (t.isWord && (t'.isWord || t' == Tok.spread)) = true
      · have hsp : (" " : String).data = [' '] := rfl
        have hlen_eq : (renderToks (t :: t' :: rest')).data.length
            = t.text.data.length + 1 + (renderToks (t' :: rest')).data.length := by
          rw [hrdata, if_pos hb, hsp]
          simp
          omega
        obtain ⟨f, rfl⟩ : ∃ f, fuel = f + 2 := ⟨fuel - 2, by omega⟩
        have hrec : lexToks f ((renderToks (t' :: rest')).data) = .ok (t' :: rest') := by
          apply ih (fun z hz => h z (by simp [hz])) f
          omega
        have hspace : lexToks (f + 1) (' ' :: (renderToks (t' :: rest')).data)
            = .ok (t' :: rest') := lexToks_space hrec
        rw [hrdata, if_pos hb, hsp]
        show lexToks (f + 2) (t.text.data ++ (' ' :: (renderToks (t' :: rest')).data))
          = .ok (t :: t' :: rest')
        exact lexTok_step hwt (by cases t <;> first | trivial | decide) hspace
      · have hemp : ("" : String).data = ([] : List Char) := rfl
        have hlen_eq : (renderToks (t :: t' :: rest')).data.length
            = t.text.data.length + (renderToks (t' :: rest')).data.length := by
          rw [hrdata, if_neg hb, hemp]
          simp
        obtain ⟨f, rfl⟩ : ∃ f, fuel = f + 2 := ⟨fuel - 2, by omega⟩
        have hrec : lexToks (f + 1) ((renderToks (t' :: rest')).data)
            = .ok (t' :: rest') := by
          apply ih (fun z hz => h z (by simp [hz])) (f + 1)
          omega
        rw [hrdata, if_neg hb, hemp]
        show lexToks (f + 2) (t.text.data ++ (renderToks (t' :: rest')).data)
          = .ok (t :: t' :: rest')
        refine lexTok_step hwt ?_ hrec
        cases t with
        | punct c => trivial
        | spread => trivial
        | str s => trivial
        | name s =>
          simp only [Tok.isWord, Bool.true_and, Bool.or_eq_true,
            Bool.not_eq_true] at hb
          push_neg at hb
          cases t' with
          | name s' => exact absurd rfl hb.1
          | int s' => exact absurd rfl hb.1
          | str s' => exact absurd rfl hb.1
          | spread => exact absurd rfl hb.2
          | punct c =>
            obtain ⟨h1, h2, h3, _, _, _⟩ := punct_facts hwt'
            rw [hu]
            show isNameCh c = false
            simp [isNameCh, h2, h3]
        | int s =>
          simp only [Tok.isWord, Bool.true_and, Bool.or_eq_true,
            Bool.not_eq_true] at hb
          push_neg at hb
          cases t' with
          | name s' => exact absurd rfl hb.1
          | int s' => exact absurd rfl hb.1
          | str s' => exact absurd rfl hb.1
          | spread => exact absurd rfl hb.2
          | punct c =>
            obtain ⟨h1, h2, h3, _, _, _⟩ := punct_facts hwt'
            rw [hu]
            show isDigitCh c = false
            exact h3

theorem spanCh_all (p : Char → Bool) (l : List Char) :
    (spanCh p l).1.all p = true := by
  induction l with
  | nil => rfl
  | cons c cs ih =>
    by_cases hc : p c
    · simp [spanCh, hc, ih]
    · simp [spanCh, hc]

/-- Every token the lexer produces is well-formed. -/
theorem lexToks_wf : ∀ (fuel : Nat) (cs : List Char) (ts : List Tok),
    lexToks fuel cs = .ok ts → ∀ t ∈ ts, tokWf t = true := by
  intro fuel
  induction fuel with
  | zero => intro cs ts h; simp [lexToks] at h
  | succ f ih =>
    intro cs ts h
    cases cs with
    | nil =>
      simp only [lexToks] at h
      cases h
      intro t ht
      simp at ht
    | cons c rest =>
      simp only [lexToks] at h
      by_cases h1 : isIgnoredCh c = true
      · rw [if_pos h1] at h
        exact ih _ _ h
      rw [if_neg h1] at h
      by_cases h2 : isNameStartCh c = true
      · rw [if_pos h2] at h
        cases hspan : spanCh isNameCh rest with
        | mk body r =>
          rw [hspan] at h
          dsimp only at h
          cases hrec : lexToks f r with
          | error e => rw [hrec] at h; cases h
          | ok ts' =>
            rw [hrec] at h
            cases h
            intro t ht
            rcases List.mem_cons.mp ht with rfl | ht'
            · have hall := spanCh_all isNameCh rest
              rw [hspan] at hall
              simp only at hall
              simp [tokWf, nameWf, h2, hall]
            · exact ih _ _ hrec t ht'
      rw [if_neg h2] at h
      by_cases h3 : isDigitCh c = true
      · rw [if_pos h3] at h
        cases hspan : spanCh isDigitCh rest with
        | mk body r =>
          rw [hspan] at h
          dsimp only at h
          cases hrec : lexToks f r with
          | error e => rw [hrec] at h; cases h
          | ok ts' =>
            rw [hrec] at h
            cases h
            intro t ht
            rcases List.mem_cons.mp ht with rfl | ht'
            · have hall := spanCh_all isDigitCh rest
              rw [hspan] at hall
              simp only at hall
              have hcm : ¬(c = '-') := by
                rintro rfl
                exact absurd h3 (by decide)
              simp [tokWf, intWf, hcm, h3, hall]
            · exact ih _ _ hrec t ht'
      rw [if_neg h3] at h
      by_cases h4 : c = '-'
      · rw [if_pos h4] at h
        cases rest with
        | nil => cases h
        | cons d rest' =>
          dsimp only at h
          by_cases hd : isDigitCh d = true
          · rw [if_pos hd] at h
            cases hspan : spanCh isDigitCh rest' with
            | mk body r =>
              rw [hspan] at h
              dsimp only at h
              cases hrec : lexToks f r with
              | error e => rw [hrec] at h; cases h
              | ok ts' =>
                rw [hrec] at h
                cases h
                intro t ht
                rcases List.mem_cons.mp ht with rfl | ht'
                · have hall := spanCh_all isDigitCh rest'
                  rw [hspan] at hall
                  simp only at hall
                  simp [tokWf, intWf, hd, hall]
                · exact ih _ _ hrec t ht'
          · rw [if_neg hd] at h
            cases h
      rw [if_neg h4] at h
      by_cases h5 : c = '"'
      · rw [if_pos h5] at h
        cases hspan : spanCh isStrCh rest with
        | mk body r =>
          rw [hspan] at h
          dsimp only at h
          split at h
          · rename_i r'
            cases hrec : lexToks f r' with
            | error e => rw [hrec] at h; cases h
            | ok ts' =>
              rw [hrec] at h
              cases h
              intro t ht
              rcases List.mem_cons.mp ht with rfl | ht'
              · have hall := spanCh_all isStrCh rest
                rw [hspan] at hall
                simp only at hall
                simp [tokWf, strWf, hall]
              · exact ih _ _ hrec t ht'
          · cases h
      rw [if_neg h5] at h
      by_cases h6 : c = '.'
      · rw [if_pos h6] at h
        split at h
        · rename_i r
          cases hrec : lexToks f r with
          | error e => rw [hrec] at h; cases h
          | ok ts' =>
            rw [hrec] at h
            cases h
            intro t ht
            rcases List.mem_cons.mp ht with rfl | ht'
            · simp [tokWf]
            · exact ih _ _ hrec t ht'
        · cases h
      rw [if_neg h6] at h
      by_cases h7 : isPunctCh c = true
      · rw [if_pos h7] at h
        cases hrec : lexToks f rest with
        | error e => rw [hrec] at h; cases h
        | ok ts' =>
          rw [hrec] at h
          cases h
          intro t ht
          rcases List.mem_cons.mp ht with rfl | ht'
          · simp [tokWf, h7]
          · exact ih _ _ hrec t ht'
      · rw [if_neg h7] at h
        cases h

/-! ### The printer emits well-formed tokens -/

theorem printValue_wf {v : GValue} (h : valueWf v = true) :
    tokWf (printValue v) = true := by
  cases v <;> simpa [printValue, tokWf, valueWf] using h

theorem printArgs_wf {args : List Argument} (h : args.all argWf = true) :
    ∀ t ∈ printArgs args, tokWf t = true := by
  induction args with
  | nil => intro t ht; simp [printArgs] at ht
  | cons a rest ih =>
    simp only [List.all_cons, Bool.and_eq_true] at h
    intro t ht
    simp only [printArgs, List.mem_cons] at ht
    rcases ht with rfl | rfl | rfl | ht'
    · have := h.1
      simp only [argWf, Bool.and_eq_true] at this
      simpa [tokWf] using this.1
    · decide
    · have := h.1
      simp only [argWf, Bool.and_eq_true] at this
      exact printValue_wf this.2
    · exact ih h.2 t ht'

theorem printSel_wf_main : ∀ n : Nat,
    (∀ sel : Selection, Selection.size sel ≤ n → selWf sel = true →
      ∀ t ∈ printSel sel, tokWf t = true)
    ∧ (∀ sels : List Selection, Selection.sizeList sels ≤ n →
      selListWf sels = true → ∀ t ∈ printSels sels, tokWf t = true) := by
  intro n
  induction n using Nat.strong_induction_on with
  | _ n ih =>
    have Hsel : ∀ sel : Selection, Selection.size sel ≤ n → selWf sel = true →
        ∀ t ∈ printSel sel, tokWf t = true := by
      intro sel hsz hwf t ht
      cases sel with
      | field a nm args sels =>
        unfold selWf at hwf
        simp only [Bool.and_eq_true] at hwf
        obtain ⟨⟨⟨ha, hn⟩, hargs⟩, hsels⟩ := hwf
        unfold printSel at ht
        simp only [List.append_assoc, List.mem_append] at ht
        rcases ht with ht | ht | ht | ht
        · cases a with
          | none => simp at ht
          | some al =>
            simp only [List.mem_cons] at ht
            rcases ht with rfl | rfl | ht'
            · simpa [tokWf] using ha
            · decide
            · simp at ht'
        · simp only [List.mem_singleton] at ht
          subst ht
          simpa [tokWf] using hn
        · cases args with
          | nil => simp at ht
          | cons a0 as =>
            simp only [List.mem_cons, List.mem_append, List.mem_singleton,
              List.not_mem_nil, or_false, or_assoc] at ht
            rcases ht with rfl | ht'' | rfl
            · decide
            · exact printArgs_wf hargs t ht''
            · decide
        · cases sels with
          | none => simp at ht
          | some s =>
            simp only [Bool.and_eq_true] at hsels
            simp only [List.mem_cons, List.mem_append, List.mem_singleton,
              List.not_mem_nil, or_false, or_assoc] at ht
            have hcs : Selection.sizeList s < n := by
              have := Selection.selSet_size
                (show (Selection.field a nm args (Option.some s)).selSet
                  = Option.some s from rfl)
              omega
            rcases ht with rfl | ht'' | rfl
            · decide
            · exact (ih (Selection.sizeList s) hcs).2 s (Nat.le_refl _)
                hsels.2 t ht''
            · decide
      | inlineFragment tc sels =>
        unfold selWf at hwf
        simp only [Bool.and_eq_true] at hwf
        obtain ⟨htc, hsels⟩ := hwf
        cases sels with
        | none => simp at hsels
        | some s =>
          simp only [Bool.and_eq_true] at hsels
          unfold printSel at ht
          simp only [List.mem_cons, List.mem_append,
            List.mem_singleton, List.not_mem_nil, or_false, or_assoc] at ht
          have hcs : Selection.sizeList s < n := by
            have := Selection.selSet_size
              (show (Selection.inlineFragment tc (Option.some s)).selSet
                = Option.some s from rfl)
            omega
          rcases ht with rfl | rfl | rfl | rfl | ht'' | rfl
          · decide
          · decide
          · simpa [tokWf] using htc
          · decide
          · exact (ih (Selection.sizeList s) hcs).2 s (Nat.le_refl _)
              hsels.2 t ht''
          · decide
      | other f =>
        unfold selWf at hwf
        simp only [Bool.and_eq_true] at hwf
        unfold printSel at ht
        simp only [List.mem_cons] at ht
        rcases ht with rfl | rfl | ht'
        · decide
        · simpa [tokWf] using hwf.1
        · simp at ht'
    refine ⟨Hsel, ?_⟩
    intro sels hsz hwf t ht
    cases sels with
    | nil => simp [printSels] at ht
    | cons x xs =>
      simp only [selListWf, Bool.and_eq_true] at hwf
      simp only [printSels, List.mem_append] at ht
      simp only [Selection.sizeList] at hsz
      have hpos := Selection.size_pos x
      rcases ht with ht' | ht'
      · exact Hsel x (by omega) hwf.1 t ht'
      · exact (ih (Selection.sizeList xs) (by omega)).2 xs (Nat.le_refl _)
          hwf.2 t ht'

/-! ### Printer well-formedness and parser fuel bounds -/

theorem printSel_wf {sel : Selection} (h : selWf sel = true) :
    ∀ t ∈ printSel sel, tokWf t = true :=
  (printSel_wf_main (Selection.size sel)).1 sel (Nat.le_refl _) h

theorem printSels_wf {sels : List Selection} (h : selListWf sels = true) :
    ∀ t ∈ printSels sels, tokWf t = true :=
  (printSel_wf_main (Selection.sizeList sels)).2 sels (Nat.le_refl _) h

theorem printDefn_wf {d : Definition} (h : defnWf d = true) :
    ∀ t ∈ printDefn d, tokWf t = true := by
  cases d with
  | operation opType nm sels =>
    unfold defnWf at h
    simp only [Bool.and_eq_true, Bool.or_eq_true, decide_eq_true_eq,
      or_assoc] at h
    obtain ⟨⟨⟨hop, hnm⟩, _⟩, hsels⟩ := h
    intro t ht
    unfold printDefn at ht
    dsimp only at ht
    rcases List.mem_append.mp ht with ht | ht
    · split at ht
      · simp at ht
      · simp only [List.mem_cons] at ht
        rcases ht with rfl | ht
        · rcases hop with rfl | rfl | rfl <;> decide
        · cases nm with
          | none => simp at ht
          | some s =>
            simp only [List.mem_singleton] at ht
            subst ht
            simpa [tokWf] using hnm
    · simp only [List.mem_cons, List.mem_append, List.mem_singleton,
        List.not_mem_nil, or_false, or_assoc] at ht
      rcases ht with rfl | ht | rfl
      · decide
      · exact printSels_wf hsels t ht
      · decide
  | fragmentDef n tc sels =>
    unfold defnWf at h
    simp only [Bool.and_eq_true] at h
    obtain ⟨⟨⟨hn, htc⟩, _⟩, hsels⟩ := h
    intro t ht
    unfold printDefn at ht
    dsimp only at ht
    simp only [List.mem_cons, List.mem_append, List.mem_singleton,
      List.not_mem_nil, or_false, or_assoc] at ht
    rcases ht with rfl | rfl | rfl | rfl | rfl | ht | rfl
    · decide
    · simpa [tokWf] using hn
    · decide
    · simpa [tokWf] using htc
    · decide
    · exact printSels_wf hsels t ht
    · decide

theorem printDoc_wf {doc : Document} (h : docWf doc = true) :
    ∀ t ∈ printDoc doc, tokWf t = true := by
  unfold docWf at h
  cases hdefs : doc.definitions with
  | nil => rw [hdefs] at h; simp at h
  | cons d ds =>
    cases ds with
    | nil =>
      rw [hdefs] at h
      dsimp only at h
      intro t ht
      unfold printDoc at ht
      rw [hdefs] at ht
      simp only [List.map_cons, List.map_nil, List.flatten_cons,
        List.flatten_nil, List.append_nil] at ht
      exact printDefn_wf h t ht
    | cons d2 ds2 => rw [hdefs] at h; simp at h

theorem printArgs_length (l : List Argument) :
    (printArgs l).length = 3 * l.length := by
  induction l with
  | nil => rfl
  | cons a rest ih => unfold printArgs; simp [ih]; omega

theorem needSel_le : ∀ n : Nat,
    (∀ sel : Selection, Selection.size sel ≤ n →
      needSel sel + 1 ≤ 3 * (printSel sel).length)
    ∧ (∀ sels : List Selection, Selection.sizeList sels ≤ n →
      needSels sels ≤ 3 * (printSels sels).length) := by
  intro n
  induction n using Nat.strong_induction_on with
  | _ n ih =>
    have Hsel : ∀ sel : Selection, Selection.size sel ≤ n →
        needSel sel + 1 ≤ 3 * (printSel sel).length := by
      intro sel hsz
      cases sel with
      | field a nm args sels =>
        cases sels with
        | none =>
          unfold needSel printSel
          cases a <;> cases args <;>
            simp [printArgs_length, List.length_append] <;> omega
        | some s =>
          have hlt : Selection.sizeList s < n := by
            have := Selection.selSet_size
              (show (Selection.field a nm args (Option.some s)).selSet
                = Option.some s from rfl)
            omega
          have hs := (ih (Selection.sizeList s) hlt).2 s (Nat.le_refl _)
          unfold needSel printSel
          cases a <;> cases args <;>
            simp [printArgs_length, List.length_append] <;> omega
      | inlineFragment tc sels =>
        cases sels with
        | none => unfold needSel printSel; simp
        | some s =>
          have hlt : Selection.sizeList s < n := by
            have := Selection.selSet_size
              (show (Selection.inlineFragment tc (Option.some s)).selSet
                = Option.some s from rfl)
            omega
          have hs := (ih (Selection.sizeList s) hlt).2 s (Nat.le_refl _)
          unfold needSel printSel
          simp [List.length_append]
          omega
      | other f => unfold needSel printSel; simp
    refine ⟨Hsel, ?_⟩
    intro sels hsz
    cases sels with
    | nil => simp [needSels, printSels]
    | cons x xs =>
      have hpos := Selection.size_pos x
      simp only [Selection.sizeList] at hsz
      have hx := Hsel x (by omega)
      have hxs := (ih (Selection.sizeList xs) (by omega)).2 xs (Nat.le_refl _)
      unfold needSels printSels
      simp only [List.length_append]
      omega

/-! ### The parser reverses the printer on well-formed trees -/

theorem parseValue_rt (v : GValue) (rest : List Tok) :
    parseValue (printValue v :: rest) = .ok (v, rest) := by
  cases v <;> rfl

theorem followOk_printSel (sel : Selection) (l : List Tok) :
    followOk (printSel sel ++ l) := by
  cases sel with
  | field a nm args sels =>
    unfold printSel
    cases a <;>
      simp only [List.append_assoc, List.cons_append, List.nil_append] <;>
      exact True.intro
  | inlineFragment tc sels =>
    unfold printSel
    simp only [List.append_assoc, List.cons_append]
    exact True.intro
  | other f =>
    unfold printSel
    simp only [List.cons_append]
    exact True.intro

theorem parseArgs_rt : ∀ (args : List Argument) (fuel : Nat) (rest : List Tok),
    args ≠ [] → args.length ≤ fuel →
    parseArgs fuel (printArgs args ++ Tok.punct (Char.ofNat 41) :: rest)
      = .ok (args, rest) := by
  intro args
  induction args with
  | nil => intro fuel rest hne _; exact absurd rfl hne
  | cons a as ih =>
    intro fuel rest _ hlen
    simp only [List.length_cons] at hlen
    obtain ⟨f, rfl⟩ : ∃ f, fuel = f + 1 := ⟨fuel - 1, by omega⟩
    unfold printArgs
    unfold parseArgs
    simp only [List.cons_append]
    rw [parseValue_rt]
    dsimp only
    cases as with
    | nil => rfl
    | cons a2 as2 =>
      unfold printArgs
      simp only [List.cons_append]
      rw [show (Tok.name a2.name :: Tok.punct (Char.ofNat 58) :: printValue a2.value
            :: (printArgs as2 ++ Tok.punct (Char.ofNat 41) :: rest))
          = printArgs (a2 :: as2) ++ Tok.punct (Char.ofNat 41) :: rest from rfl]
      rw [ih f rest (by simp)
        (by simp only [List.length_cons] at hlen ⊢; omega)]

theorem printSel_not_punct (sel : Selection) (l r : List Tok) (c : Char) :
    printSel sel ++ l ≠ Tok.punct c :: r := by
  cases sel with
  | field a nm args sels =>
    cases a with
    | none =>
      unfold printSel
      simp only [List.nil_append, List.cons_append, List.singleton_append,
        List.append_assoc]
      intro h
      simp at h
    | some al =>
      unfold printSel
      simp only [List.cons_append, List.append_assoc]
      intro h
      simp at h
  | inlineFragment tc sels =>
    unfold printSel
    simp only [List.cons_append]
    intro h
    simp at h
  | other f =>
    unfold printSel
    simp only [List.cons_append]
    intro h
    simp at h

theorem parseFieldTail_rt (g : Nat) (al : Option String) (nm : String)
    (args : List Argument) (sels : Option (List Selection)) (rest : List Tok)
    (hlen : args.length ≤ g)
    (hsels : ∀ s, sels = Option.some s →
      parseSels g (printSels s ++ Tok.punct rbraceCh :: rest) = .ok (s, rest))
    (hfo : followOk rest) :
    parseFieldTail (g + 1) al nm
      (((match args with
         | [] => []
         | _ => Tok.punct '(' :: printArgs args ++ [Tok.punct ')']) : List Tok)
       ++ ((match sels with
         | Option.none => []
         | Option.some s => Tok.punct lbraceCh :: printSels s
             ++ [Tok.punct rbraceCh]) : List Tok)
       ++ rest)
      = .ok (.field al nm args sels, rest) := by
  cases args with
  | nil =>
    cases sels with
    | none =>
      simp only [List.nil_append]
      unfold parseFieldTail
      cases rest with
      | nil => rfl
      | cons t ts =>
        cases t with
        | name s2 => rfl
        | int s2 => rfl
        | str s2 => rfl
        | spread => rfl
        | punct c =>
          obtain ⟨hc1, hc2, hc3⟩ := hfo
          split
          · rename_i heq
            exfalso
            injection heq with h1 h2
            injection h1 with h1
            exact hc1 h1
          · rename_i c2 r2 heq
            injection heq with h1 h2
            injection h1 with h1
            subst h1
            subst h2
            rw [if_neg hc3]
          · rfl
    | some s =>
      simp only [List.nil_append, List.cons_append, List.append_assoc,
        List.singleton_append]
      unfold parseFieldTail
      split
      · rename_i heq
        exfalso
        injection heq with h1 h2
        injection h1 with h1
        exact absurd h1 (by decide)
      · rename_i c2 r2 heq
        injection heq with h1 h2
        injection h1 with h1
        subst h1
        subst h2
        rw [if_pos rfl, hsels s rfl]
      · rename_i hne
        exfalso
        exact hne lbraceCh _ rfl
  | cons a0 as =>
    cases sels with
    | none =>
      simp only [List.cons_append, List.append_assoc, List.singleton_append,
        List.nil_append]
      unfold parseFieldTail
      split
      · rename_i r heq
        injection heq with h1 h2
        subst h2
        rw [parseArgs_rt (a0 :: as) g rest (by simp) hlen]
        dsimp only
        cases rest with
        | nil => rfl
        | cons t ts =>
          cases t with
          | name s2 => rfl
          | int s2 => rfl
          | str s2 => rfl
          | spread => rfl
          | punct c =>
            obtain ⟨hc1, hc2, hc3⟩ := hfo
            dsimp only
            rw [if_neg hc3]
      · rename_i cc tt hguard heq
        exfalso
        injection heq with h1 h2
        injection h1 with h1
        exact hguard h1.symm
      · rename_i hne
        exfalso
        exact hne '(' _ rfl
    | some s =>
      simp only [List.cons_append, List.append_assoc, List.singleton_append]
      unfold parseFieldTail
      split
      · rename_i r heq
        injection heq with h1 h2
        subst h2
        rw [parseArgs_rt (a0 :: as) g _ (by simp) hlen]
        simp only [List.nil_append, if_true]
        rw [hsels s rfl]
      · rename_i cc tt hguard heq
        exfalso
        injection heq with h1 h2
        injection h1 with h1
        exact hguard h1.symm
      · rename_i hne
        exfalso
        exact hne '(' _ rfl

theorem parse_print_rt : ∀ fuel : Nat,
    (∀ (sel : Selection) (rest : List Tok), selWf sel = true → followOk rest →
      needSel sel ≤ fuel →
      parseSel fuel (printSel sel ++ rest) = .ok (sel, rest))
    ∧ (∀ (sels : List Selection) (rest : List Tok), selListWf sels = true →
      sels ≠ [] → needSels sels ≤ fuel →
      parseSels fuel (printSels sels ++ Tok.punct rbraceCh :: rest)
        = .ok (sels, rest)) := by
  intro fuel
  induction fuel using Nat.strong_induction_on with
  | _ fuel ih =>
    have Hsel : ∀ (sel : Selection) (rest : List Tok), selWf sel = true →
        followOk rest → needSel sel ≤ fuel →
        parseSel fuel (printSel sel ++ rest) = .ok (sel, rest) := by
      intro sel rest hwf hfo hneed
      cases sel with
      | other f =>
        unfold needSel at hneed
        obtain ⟨g, rfl⟩ : ∃ g, fuel = g + 1 := ⟨fuel - 1, by omega⟩
        unfold selWf at hwf
        simp only [Bool.and_eq_true, decide_eq_true_eq] at hwf
        unfold printSel
        simp only [List.cons_append]
        unfold parseSel
        dsimp only
        rw [if_neg hwf.2]
        rfl
      | inlineFragment tc sels =>
        cases sels with
        | none =>
          unfold selWf at hwf
          simp at hwf
        | some s =>
          unfold needSel at hneed
          obtain ⟨g, rfl⟩ : ∃ g, fuel = g + 2 := ⟨fuel - 2, by omega⟩
          unfold selWf at hwf
          simp only [Bool.and_eq_true, Bool.not_eq_true'] at hwf
          obtain ⟨htc, hse, hlw⟩ := hwf
          have hps := (ih g (by omega)).2 s rest hlw
            (by intro h; subst h; simp at hse) (by omega)
          have hset : parseSelSet (g + 1)
              (Tok.punct lbraceCh :: (printSels s ++ Tok.punct rbraceCh :: rest))
              = .ok (s, rest) := by
            unfold parseSelSet
            first
            | (dsimp only
               rw [if_pos rfl])
            | rw [if_pos rfl]
            | simp only [if_true]
            exact hps
          unfold printSel
          simp only [List.cons_append, List.append_assoc, List.singleton_append]
          unfold parseSel
          first
          | dsimp only
          | skip
          rw [if_pos rfl]
          first
          | dsimp only
          | skip
          simp only [List.nil_append]
          rw [hset]
      | field a nm args sels =>
        unfold selWf at hwf
        simp only [Bool.and_eq_true] at hwf
        obtain ⟨⟨⟨ha, hn⟩, hargs⟩, hsels⟩ := hwf
        have hf2 : 2 ≤ fuel := by
          cases sels <;> unfold needSel at hneed <;> omega
        obtain ⟨g, rfl⟩ : ∃ g, fuel = g + 2 := ⟨fuel - 2, by omega⟩
        have hlen : args.length ≤ g := by
          cases sels <;> unfold needSel at hneed <;> omega
        have hsels' : ∀ s, sels = Option.some s →
            parseSels g (printSels s ++ Tok.punct rbraceCh :: rest)
              = .ok (s, rest) := by
          intro s hs
          subst hs
          unfold needSel at hneed
          simp only [Bool.and_eq_true, Bool.not_eq_true'] at hsels
          exact (ih g (by omega)).2 s rest hsels.2
            (by intro h; subst h; simp at hsels) (by omega)
        have htail := parseFieldTail_rt g a nm args sels rest hlen hsels' hfo
        cases a with
        | some al =>
          cases args with
          | nil =>
            cases sels with
            | none => exact htail
            | some s => exact htail
          | cons a0 as =>
            cases sels with
            | none => exact htail
            | some s => exact htail
        | none =>
          cases args with
          | cons a0 as =>
            cases sels with
            | none => exact htail
            | some s => exact htail
          | nil =>
            cases sels with
            | some s => exact htail
            | none =>
              cases rest with
              | nil => exact htail
              | cons t ts =>
                cases t with
                | name s2 => exact htail
                | int s2 => exact htail
                | str s2 => exact htail
                | spread => exact htail
                | punct c =>
                  obtain ⟨hc1, hc2, hc3⟩ := hfo
                  unfold printSel
                  simp only [List.nil_append, List.append_nil, List.cons_append,
                    List.singleton_append]
                  unfold parseSel
                  dsimp only
                  split
                  · rename_i f r2 heq
                    exfalso
                    injection heq with e1 e2
                    injection e1 with e1
                    exact hc2 e1
                  all_goals exact htail
    refine ⟨Hsel, ?_⟩
    intro sels rest hwf hne hneed
    cases sels with
    | nil => exact absurd rfl hne
    | cons x xs =>
      unfold selListWf at hwf
      simp only [Bool.and_eq_true] at hwf
      unfold needSels at hneed
      obtain ⟨g, rfl⟩ : ∃ g, fuel = g + 1 := ⟨fuel - 1, by omega⟩
      have hfo2 : followOk (printSels xs ++ Tok.punct rbraceCh :: rest) := by
        cases xs with
        | nil =>
          unfold printSels
          simp only [List.nil_append]
          exact ⟨by decide, by decide, by decide⟩
        | cons y ys =>
          unfold printSels
          rw [List.append_assoc]
          exact followOk_printSel y _
      have hx := (ih g (by omega)).1 x (printSels xs ++ Tok.punct rbraceCh :: rest)
        hwf.1 hfo2 (by omega)
      unfold printSels
      unfold parseSels
      first
      | dsimp only
      | skip
      rw [List.append_assoc, hx]
      first
      | dsimp only
      | skip
      cases xs with
      | nil =>
        unfold printSels
        simp only [List.nil_append]
        first
        | rw [if_pos rfl]
        | simp only [if_true]
      | cons y ys =>
        split
        · rename_i c2 r2 heq
          exfalso
          unfold printSels at heq
          rw [List.append_assoc] at heq
          exact printSel_not_punct y _ _ _ heq
        · rw [(ih g (by omega)).2 (y :: ys) rest hwf.2 (by simp) (by omega)]

theorem parseDefn_rt (opType : String) (nm : Option String)
    (sels : List Selection) (fuel : Nat)
    (hwf : defnWf (.operation opType nm sels) = true)
    (hfuel : needSels sels + 1 ≤ fuel) :
    parseDefn fuel (printDefn (.operation opType nm sels))
      = .ok (.operation opType nm sels, []) := by
  unfold defnWf at hwf
  simp only [Bool.and_eq_true, Bool.or_eq_true, decide_eq_true_eq,
    Bool.not_eq_true', or_assoc] at hwf
  obtain ⟨⟨⟨hop, hnm⟩, hne⟩, hlw⟩ := hwf
  obtain ⟨h, rfl⟩ : ∃ h, fuel = h + 1 := ⟨fuel - 1, by omega⟩
  have hne' : sels ≠ [] := by intro h0; subst h0; simp at hne
  have hps := (parse_print_rt (h + 1)).2 sels [] hlw hne' (by omega)
  have hps' := (parse_print_rt h).2 sels [] hlw hne' (by omega)
  rcases hop with rfl | rfl | rfl
  · cases nm with
    | none =>
      rw [show parseDefn (h + 1)
            (printDefn (.operation "query" Option.none sels))
          = (match parseSels (h + 1)
                (printSels sels ++ [Tok.punct rbraceCh]) with
             | .error e => .error e
             | .ok (p, r) => .ok (.operation "query" Option.none p, r))
          from rfl, hps]
    | some s =>
      rw [show parseDefn (h + 1)
            (printDefn (.operation "query" (Option.some s) sels))
          = (match parseSels h
                (printSels sels ++ [Tok.punct rbraceCh]) with
             | .error e => .error e
             | .ok (p, r) => .ok (.operation "query" (Option.some s) p, r))
          from rfl, hps']
  · cases nm with
    | none =>
      rw [show parseDefn (h + 1)
            (printDefn (.operation "mutation" Option.none sels))
          = (match parseSels h
                (printSels sels ++ [Tok.punct rbraceCh]) with
             | .error e => .error e
             | .ok (p, r) => .ok (.operation "mutation" Option.none p, r))
          from rfl, hps']
    | some s =>
      rw [show parseDefn (h + 1)
            (printDefn (.operation "mutation" (Option.some s) sels))
          = (match parseSels h
                (printSels sels ++ [Tok.punct rbraceCh]) with
             | .error e => .error e
             | .ok (p, r) => .ok (.operation "mutation" (Option.some s) p, r))
          from rfl, hps']
  · cases nm with
    | none =>
      rw [show parseDefn (h + 1)
            (printDefn (.operation "subscription" Option.none sels))
          = (match parseSels h
                (printSels sels ++ [Tok.punct rbraceCh]) with
             | .error e => .error e
             | .ok (p, r) => .ok (.operation "subscription" Option.none p, r))
          from rfl, hps']
    | some s =>
      rw [show parseDefn (h + 1)
            (printDefn (.operation "subscription" (Option.some s) sels))
          = (match parseSels h
                (printSels sels ++ [Tok.punct rbraceCh]) with
             | .error e => .error e
             | .ok (p, r) =>
               .ok (.operation "subscription" (Option.some s) p, r))
          from rfl, hps']

theorem parseGql_print_rt (opType : String) (nm : Option String)
    (sels : List Selection)
    (hwf : defnWf (.operation opType nm sels) = true) :
    parseGql (renderToks (printDoc ⟨[.operation opType nm sels]⟩))
      = .ok ⟨[.operation opType nm sels]⟩ := by
  have htoks : printDoc ⟨[Definition.operation opType nm sels]⟩
      = printDefn (.operation opType nm sels) := by
    unfold printDoc
    simp
  have hwftoks : ∀ t ∈ printDoc ⟨[Definition.operation opType nm sels]⟩,
      tokWf t = true := by
    apply printDoc_wf
    exact hwf
  have hlex := lexToks_render
    (printDoc ⟨[Definition.operation opType nm sels]⟩) hwftoks
    ((renderToks (printDoc ⟨[Definition.operation opType nm sels]⟩)).data.length
      + 1) (by omega)
  have hbound : needSels sels ≤ 3 * (printSels sels).length :=
    (needSel_le (Selection.sizeList sels)).2 sels (Nat.le_refl _)
  have hdlen : (printSels sels).length + 2
      ≤ (printDefn (Definition.operation opType nm sels)).length := by
    unfold printDefn
    simp only [List.length_append, List.length_cons]
    omega
  unfold parseGql
  rw [hlex]
  first
  | dsimp only
  | skip
  rw [htoks]
  obtain ⟨F, hF, hFb⟩ :
      ∃ F, parseFuel (printDefn (Definition.operation opType nm sels)).length
          = F + 1
        ∧ needSels sels + 1 ≤ F := by
    refine ⟨4 * (printDefn (Definition.operation opType nm sels)).length + 15,
      by unfold parseFuel; omega, ?_⟩
    omega
  rw [hF]
  unfold parseDefns
  first
  | dsimp only
  | skip
  rw [parseDefn_rt opType nm sels F hwf hFb]

/-! ### The parser only produces well-formed trees from well-formed
tokens -/

theorem parseValue_wf {toks : List Tok} {v : GValue} {rest : List Tok}
    (hwf : ∀ t ∈ toks, tokWf t = true)
    (h : parseValue toks = .ok (v, rest)) :
    valueWf v = true ∧ ∀ t ∈ rest, tokWf t = true := by
  cases toks with
  | nil => unfold parseValue at h; cases h
  | cons t ts =>
    cases t with
    | int s =>
      unfold parseValue at h
      simp only [Except.ok.injEq, Prod.mk.injEq] at h
      obtain ⟨h1, h2⟩ := h
      subst h1
      subst h2
      refine ⟨by simpa [valueWf, tokWf] using hwf (Tok.int s) (by simp), ?_⟩
      intro t ht
      exact hwf t (by simp [ht])
    | str s =>
      unfold parseValue at h
      simp only [Except.ok.injEq, Prod.mk.injEq] at h
      obtain ⟨h1, h2⟩ := h
      subst h1
      subst h2
      refine ⟨by simpa [valueWf, tokWf] using hwf (Tok.str s) (by simp), ?_⟩
      intro t ht
      exact hwf t (by simp [ht])
    | name s =>
      unfold parseValue at h
      simp only [Except.ok.injEq, Prod.mk.injEq] at h
      obtain ⟨h1, h2⟩ := h
      subst h1
      subst h2
      refine ⟨by simpa [valueWf, tokWf] using hwf (Tok.name s) (by simp), ?_⟩
      intro t ht
      exact hwf t (by simp [ht])
    | punct c => unfold parseValue at h; cases h
    | spread => unfold parseValue at h; cases h

theorem parseArgs_wf : ∀ (fuel : Nat) (toks : List Tok) (args : List Argument)
    (rest : List Tok), (∀ t ∈ toks, tokWf t = true) →
    parseArgs fuel toks = .ok (args, rest) →
    args.all argWf = true ∧ args ≠ [] ∧ ∀ t ∈ rest, tokWf t = true := by
  intro fuel
  induction fuel with
  | zero =>
    intro toks args rest _ h
    unfold parseArgs at h
    cases h
  | succ f ih =>
    intro toks args rest hwf h
    unfold parseArgs at h
    split at h
    · rename_i n rest1
      have hn : nameWf n = true := by
        simpa [tokWf] using hwf (Tok.name n) (by simp)
      have hrest1 : ∀ t ∈ rest1, tokWf t = true := by
        intro t ht
        exact hwf t (by simp [ht])
      cases hpv : parseValue rest1 with
      | error e => rw [hpv] at h; cases h
      | ok pr =>
        obtain ⟨v, rest2⟩ := pr
        rw [hpv] at h
        obtain ⟨hv, hrest2⟩ := parseValue_wf hrest1 hpv
        dsimp only at h
        split at h
        · rename_i rest3
          simp only [Except.ok.injEq, Prod.mk.injEq] at h
          obtain ⟨h1, h2⟩ := h
          subst h1
          subst h2
          refine ⟨by simp [argWf, hn, hv], by simp, ?_⟩
          intro t ht
          exact hrest2 t (by simp [ht])
        · cases hpa : parseArgs f rest2 with
          | error e => rw [hpa] at h; cases h
          | ok pr2 =>
            obtain ⟨args2, rest3⟩ := pr2
            rw [hpa] at h
            dsimp only at h
            simp only [Except.ok.injEq, Prod.mk.injEq] at h
            obtain ⟨h1, h2⟩ := h
            subst h1
            subst h2
            obtain ⟨ha2, hne2, hr3⟩ := ih rest2 args2 rest3 hrest2 hpa
            exact ⟨by simp [argWf, hn, hv, ha2], by simp, hr3⟩
    · cases h

theorem parse_wf_main : ∀ fuel : Nat,
    (∀ (toks : List Tok) (sel : Selection) (rest : List Tok),
      (∀ t ∈ toks, tokWf t = true) → parseSel fuel toks = .ok (sel, rest) →
      selWf sel = true ∧ ∀ t ∈ rest, tokWf t = true)
    ∧ (∀ (al : Option String) (nm : String) (toks : List Tok)
        (sel : Selection) (rest : List Tok),
      (∀ s0, al = Option.some s0 → nameWf s0 = true) →
      nameWf nm = true → (∀ t ∈ toks, tokWf t = true) →
      parseFieldTail fuel al nm toks = .ok (sel, rest) →
      selWf sel = true ∧ ∀ t ∈ rest, tokWf t = true)
    ∧ (∀ (toks : List Tok) (sels : List Selection) (rest : List Tok),
      (∀ t ∈ toks, tokWf t = true) → parseSelSet fuel toks = .ok (sels, rest) →
      selListWf sels = true ∧ sels ≠ [] ∧ ∀ t ∈ rest, tokWf t = true)
    ∧ (∀ (toks : List Tok) (sels : List Selection) (rest : List Tok),
      (∀ t ∈ toks, tokWf t = true) → parseSels fuel toks = .ok (sels, rest) →
      selListWf sels = true ∧ sels ≠ [] ∧ ∀ t ∈ rest, tokWf t = true) := by
  intro fuel
  induction fuel with
  | zero =>
    refine ⟨?_, ?_, ?_, ?_⟩
    · intro toks sel rest _ h; unfold parseSel at h; cases h
    · intro al nm toks sel rest _ _ _ h; unfold parseFieldTail at h; cases h
    · intro toks sels rest _ h; unfold parseSelSet at h; cases h
    · intro toks sels rest _ h; unfold parseSels at h; cases h
  | succ f ih =>
    obtain ⟨ihSel, ihTail, ihSet, ihSels⟩ := ih
    have Htail : ∀ (al : Option String) (nm : String) (toks : List Tok)
        (sel : Selection) (rest : List Tok),
        (∀ s0, al = Option.some s0 → nameWf s0 = true) →
        nameWf nm = true → (∀ t ∈ toks, tokWf t = true) →
        parseFieldTail (f + 1) al nm toks = .ok (sel, rest) →
        selWf sel = true ∧ ∀ t ∈ rest, tokWf t = true := by
      intro al nm toks sel rest hal hnm hwf h
      have hwFieldNone : ∀ (args : List Argument),
          args.all argWf = true →
          selWf (.field al nm args Option.none) = true := by
        intro args hargs
        cases al with
        | none => unfold selWf; simp [hnm, hargs]
        | some s0 => unfold selWf; simp [hal s0 rfl, hnm, hargs]
      have hwFieldSome : ∀ (args : List Argument) (s2 : List Selection),
          args.all argWf = true → selListWf s2 = true → s2 ≠ [] →
          selWf (.field al nm args (Option.some s2)) = true := by
        intro args s2 hargs hw2 hne2
        have hie : s2.isEmpty = false := by
          cases s2 with
          | nil => exact absurd rfl hne2
          | cons a b => rfl
        cases al with
        | none => unfold selWf; simp [hnm, hargs, hie, hw2]
        | some s0 => unfold selWf; simp [hal s0 rfl, hnm, hargs, hie, hw2]
      unfold parseFieldTail at h
      split at h
      · rename_i rest1
        have hrest1 : ∀ t ∈ rest1, tokWf t = true := by
          intro t ht
          exact hwf t (by simp [ht])
        cases hpa : parseArgs f rest1 with
        | error e => rw [hpa] at h; cases h
        | ok pr =>
          obtain ⟨args, rest2⟩ := pr
          rw [hpa] at h
          dsimp only at h
          obtain ⟨hargs, hargsne, hrest2⟩ :=
            parseArgs_wf f rest1 args rest2 hrest1 hpa
          split at h
          · rename_i c rest3
            have hrest3 : ∀ t ∈ rest3, tokWf t = true := by
              intro t ht
              exact hrest2 t (by simp [ht])
            split at h
            · cases hps : parseSels f rest3 with
              | error e => rw [hps] at h; cases h
              | ok pr2 =>
                obtain ⟨sels2, rest4⟩ := pr2
                rw [hps] at h
                dsimp only at h
                simp only [Except.ok.injEq, Prod.mk.injEq] at h
                obtain ⟨h1, h2⟩ := h
                subst h1
                subst h2
                obtain ⟨hw2, hne2, hrest4⟩ := ihSels rest3 sels2 rest4 hrest3 hps
                exact ⟨hwFieldSome args sels2 hargs hw2 hne2, hrest4⟩
            · simp only [Except.ok.injEq, Prod.mk.injEq] at h
              obtain ⟨h1, h2⟩ := h
              subst h1
              subst h2
              exact ⟨hwFieldNone args hargs, hrest2⟩
          · simp only [Except.ok.injEq, Prod.mk.injEq] at h
            obtain ⟨h1, h2⟩ := h
            subst h1
            subst h2
            exact ⟨hwFieldNone args hargs, hrest2⟩
      · rename_i c rest1 hguard
        have hrest1 : ∀ t ∈ rest1, tokWf t = true := by
          intro t ht
          exact hwf t (by simp [ht])
        split at h
        · cases hps : parseSels f rest1 with
          | error e => rw [hps] at h; cases h
          | ok pr2 =>
            obtain ⟨sels2, rest4⟩ := pr2
            rw [hps] at h
            dsimp only at h
            simp only [Except.ok.injEq, Prod.mk.injEq] at h
            obtain ⟨h1, h2⟩ := h
            subst h1
            subst h2
            obtain ⟨hw2, hne2, hrest4⟩ := ihSels rest1 sels2 rest4 hrest1 hps
            exact ⟨hwFieldSome [] sels2 (by simp) hw2 hne2, hrest4⟩
        · simp only [Except.ok.injEq, Prod.mk.injEq] at h
          obtain ⟨h1, h2⟩ := h
          subst h1
          subst h2
          exact ⟨hwFieldNone [] (by simp), hwf⟩
      · simp only [Except.ok.injEq, Prod.mk.injEq] at h
        obtain ⟨h1, h2⟩ := h
        subst h1
        subst h2
        exact ⟨hwFieldNone [] (by simp), hwf⟩
    have Hset : ∀ (toks : List Tok) (sels : List Selection) (rest : List Tok),
        (∀ t ∈ toks, tokWf t = true) →
        parseSelSet (f + 1) toks = .ok (sels, rest) →
        selListWf sels = true ∧ sels ≠ [] ∧ ∀ t ∈ rest, tokWf t = true := by
      intro toks sels rest hwf h
      unfold parseSelSet at h
      split at h
      · rename_i c rest1
        split at h
        · exact ihSels rest1 sels rest
            (fun t ht => hwf t (by simp [ht])) h
        · cases h
      · cases h
    have Hsels : ∀ (toks : List Tok) (sels : List Selection) (rest : List Tok),
        (∀ t ∈ toks, tokWf t = true) →
        parseSels (f + 1) toks = .ok (sels, rest) →
        selListWf sels = true ∧ sels ≠ [] ∧ ∀ t ∈ rest, tokWf t = true := by
      intro toks sels rest hwf h
      unfold parseSels at h
      cases hps : parseSel f toks with
      | error e => rw [hps] at h; cases h
      | ok pr =>
        obtain ⟨sel, rest1⟩ := pr
        rw [hps] at h
        dsimp only at h
        obtain ⟨hwsel, hrest1⟩ := ihSel toks sel rest1 hwf hps
        split at h
        · rename_i c rest2
          split at h
          · simp only [Except.ok.injEq, Prod.mk.injEq] at h
            obtain ⟨h1, h2⟩ := h
            subst h1
            subst h2
            refine ⟨by simp [selListWf, hwsel], by simp, ?_⟩
            intro t ht
            exact hrest1 t (by simp [ht])
          · cases hps2 : parseSels f (Tok.punct c :: rest2) with
            | error e => rw [hps2] at h; cases h
            | ok pr2 =>
              obtain ⟨sels2, rest3⟩ := pr2
              rw [hps2] at h
              dsimp only at h
              simp only [Except.ok.injEq, Prod.mk.injEq] at h
              obtain ⟨h1, h2⟩ := h
              subst h1
              subst h2
              obtain ⟨hw2, hne2, hrest3⟩ :=
                ihSels (Tok.punct c :: rest2) sels2 rest3 hrest1 hps2
              exact ⟨by simp [selListWf, hwsel, hw2], by simp, hrest3⟩
        · cases hps2 : parseSels f rest1 with
          | error e => rw [hps2] at h; cases h
          | ok pr2 =>
            obtain ⟨sels2, rest3⟩ := pr2
            rw [hps2] at h
            dsimp only at h
            simp only [Except.ok.injEq, Prod.mk.injEq] at h
            obtain ⟨h1, h2⟩ := h
            subst h1
            subst h2
            obtain ⟨hw2, hne2, hrest3⟩ := ihSels rest1 sels2 rest3 hrest1 hps2
            exact ⟨by simp [selListWf, hwsel, hw2], by simp, hrest3⟩
    refine ⟨?_, Htail, Hset, Hsels⟩
    intro toks sel rest hwf h
    unfold parseSel at h
    split at h
    · rename_i n rest1
      split at h
      · rename_i hn
        split at h
        · rename_i tname rest2
          cases hset : parseSelSet f rest2 with
          | error e => rw [hset] at h; cases h
          | ok pr =>
            obtain ⟨sels2, rest3⟩ := pr
            rw [hset] at h
            dsimp only at h
            simp only [Except.ok.injEq, Prod.mk.injEq] at h
            obtain ⟨h1, h2⟩ := h
            subst h1
            subst h2
            have hrest2 : ∀ t ∈ rest2, tokWf t = true := by
              intro t ht
              exact hwf t (by simp [ht])
            obtain ⟨hw2, hne2, hrest3⟩ := ihSet rest2 sels2 rest3 hrest2 hset
            have htn : nameWf tname = true := by
              simpa [tokWf] using hwf (Tok.name tname) (by simp)
            have hie : sels2.isEmpty = false := by
              cases sels2 with
              | nil => exact absurd rfl hne2
              | cons a b => rfl
            refine ⟨?_, hrest3⟩
            unfold selWf
            simp [htn, hw2, hie]
        · cases h
      · rename_i hn
        simp only [Except.ok.injEq, Prod.mk.injEq] at h
        obtain ⟨h1, h2⟩ := h
        subst h1
        subst h2
        have hnm : nameWf n = true := by
          simpa [tokWf] using hwf (Tok.name n) (by simp)
        refine ⟨?_, fun t ht => hwf t (by simp [ht])⟩
        unfold selWf
        simp [hnm, hn]
    · rename_i n rest1
      have hn : nameWf n = true := by
        simpa [tokWf] using hwf (Tok.name n) (by simp)
      have hrest1 : ∀ t ∈ rest1, tokWf t = true := by
        intro t ht
        exact hwf t (by simp [ht])
      split at h
      · rename_i f2 rest2
        have hf2 : nameWf f2 = true := by
          simpa [tokWf] using hrest1 (Tok.name f2) (by simp)
        exact ihTail (Option.some n) f2 rest2 sel rest
          (by intro s0 hs0; injection hs0 with e; subst e; exact hn) hf2
          (fun t ht => hrest1 t (by simp [ht])) h
      · exact ihTail Option.none n rest1 sel rest (by intro s0 hs0; cases hs0)
          hn hrest1 h
    · cases h

theorem parseDefn_wf (fuel : Nat) (toks : List Tok) (d : Definition)
    (rest : List Tok) (hwf : ∀ t ∈ toks, tokWf t = true)
    (h : parseDefn fuel toks = .ok (d, rest)) :
    defnWf d = true ∧ ∀ t ∈ rest, tokWf t = true := by
  unfold parseDefn at h
  split at h
  · rename_i kw rest1
    have hrest1 : ∀ t ∈ rest1, tokWf t = true := by
      intro t ht
      exact hwf t (by simp [ht])
    split at h
    · rename_i hkws
      split at h
      · rename_i nm rest2
        have hrest2 : ∀ t ∈ rest2, tokWf t = true := by
          intro t ht
          exact hrest1 t (by simp [ht])
        cases hset : parseSelSet fuel rest2 with
        | error e => rw [hset] at h; cases h
        | ok pr =>
          obtain ⟨sels2, rest3⟩ := pr
          rw [hset] at h
          dsimp only at h
          simp only [Except.ok.injEq, Prod.mk.injEq] at h
          obtain ⟨h1, h2⟩ := h
          subst h1
          subst h2
          obtain ⟨hw2, hne2, hrest3⟩ :=
            (parse_wf_main fuel).2.2.1 rest2 sels2 rest3 hrest2 hset
          have hnm : nameWf nm = true := by
            simpa [tokWf] using hrest1 (Tok.name nm) (by simp)
          have hie : sels2.isEmpty = false := by
            cases sels2 with
            | nil => exact absurd rfl hne2
            | cons a b => rfl
          refine ⟨?_, hrest3⟩
          unfold defnWf
          simp [hkws, hnm, hie, hw2]
      · cases hset : parseSelSet fuel rest1 with
        | error e => rw [hset] at h; cases h
        | ok pr =>
          obtain ⟨sels2, rest3⟩ := pr
          rw [hset] at h
          dsimp only at h
          simp only [Except.ok.injEq, Prod.mk.injEq] at h
          obtain ⟨h1, h2⟩ := h
          subst h1
          subst h2
          obtain ⟨hw2, hne2, hrest3⟩ :=
            (parse_wf_main fuel).2.2.1 rest1 sels2 rest3 hrest1 hset
          have hie : sels2.isEmpty = false := by
            cases sels2 with
            | nil => exact absurd rfl hne2
            | cons a b => rfl
          refine ⟨?_, hrest3⟩
          unfold defnWf
          simp [hkws, hie, hw2]
    · split at h
      · rename_i hkf
        split at h
        · rename_i nm onKw tname rest2
          split at h
          · rename_i honkw
            have hrest2 : ∀ t ∈ rest2, tokWf t = true := by
              intro t ht
              exact hrest1 t (by simp [ht])
            cases hset : parseSelSet fuel rest2 with
            | error e => rw [hset] at h; cases h
            | ok pr =>
              obtain ⟨sels2, rest3⟩ := pr
              rw [hset] at h
              dsimp only at h
              simp only [Except.ok.injEq, Prod.mk.injEq] at h
              obtain ⟨h1, h2⟩ := h
              subst h1
              subst h2
              obtain ⟨hw2, hne2, hrest3⟩ :=
                (parse_wf_main fuel).2.2.1 rest2 sels2 rest3 hrest2 hset
              have hnm : nameWf nm = true := by
                simpa [tokWf] using hrest1 (Tok.name nm) (by simp)
              have htn : nameWf tname = true := by
                simpa [tokWf] using hrest1 (Tok.name tname) (by simp)
              have hie : sels2.isEmpty = false := by
                cases sels2 with
                | nil => exact absurd rfl hne2
                | cons a b => rfl
              refine ⟨?_, hrest3⟩
              unfold defnWf
              simp [hnm, htn, hie, hw2]
          · cases h
        · cases h
      · cases h
  · rename_i c rest1
    have hrest1 : ∀ t ∈ rest1, tokWf t = true := by
      intro t ht
      exact hwf t (by simp [ht])
    split at h
    · cases hps : parseSels fuel rest1 with
      | error e => rw [hps] at h; cases h
      | ok pr =>
        obtain ⟨sels2, rest3⟩ := pr
        rw [hps] at h
        dsimp only at h
        simp only [Except.ok.injEq, Prod.mk.injEq] at h
        obtain ⟨h1, h2⟩ := h
        subst h1
        subst h2
        obtain ⟨hw2, hne2, hrest3⟩ :=
          (parse_wf_main fuel).2.2.2 rest1 sels2 rest3 hrest1 hps
        have hie : sels2.isEmpty = false := by
          cases sels2 with
          | nil => exact absurd rfl hne2
          | cons a b => rfl
        refine ⟨?_, hrest3⟩
        unfold defnWf
        simp [hie, hw2]
    · cases h
  · cases h

theorem parseDefns_wf : ∀ (fuel : Nat) (toks : List Tok)
    (ds : List Definition), (∀ t ∈ toks, tokWf t = true) →
    parseDefns fuel toks = .ok ds → ∀ d ∈ ds, defnWf d = true := by
  intro fuel
  induction fuel with
  | zero => intro toks ds _ h; unfold parseDefns at h; cases h
  | succ f ih =>
    intro toks ds hwf h
    unfold parseDefns at h
    cases hpd : parseDefn f toks with
    | error e => rw [hpd] at h; cases h
    | ok pr =>
      obtain ⟨d, rest⟩ := pr
      rw [hpd] at h
      dsimp only at h
      obtain ⟨hd, hrest⟩ := parseDefn_wf f toks d rest hwf hpd
      split at h
      · simp only [Except.ok.injEq] at h
        subst h
        intro d' hd'
        simp only [List.mem_singleton] at hd'
        subst hd'
        exact hd
      · cases hds : parseDefns f rest with
        | error e => rw [hds] at h; cases h
        | ok ds2 =>
          rw [hds] at h
          dsimp only at h
          simp only [Except.ok.injEq] at h
          subst h
          intro d' hd'
          rcases List.mem_cons.mp hd' with rfl | hd2
          · exact hd
          · exact ih rest ds2 hrest hds d' hd2

theorem parseGql_wf {s : String} {doc : Document}
    (h : parseGql s = .ok doc) : ∀ d ∈ doc.definitions, defnWf d = true := by
  unfold parseGql at h
  cases hlex : lexToks (s.data.length + 1) s.data with
  | error e => rw [hlex] at h; cases h
  | ok toks =>
    rw [hlex] at h
    dsimp only at h
    cases hpd : parseDefns (parseFuel toks.length) toks with
    | error e => rw [hpd] at h; cases h
    | ok ds =>
      rw [hpd] at h
      dsimp only at h
      simp only [Except.ok.injEq] at h
      subst h
      exact parseDefns_wf _ toks ds (lexToks_wf _ _ _ hlex) hpd

/-! ### Zipping preserves well-formedness -/

theorem selListWf_append (l1 l2 : List Selection) :
    selListWf (l1 ++ l2) = (selListWf l1 && selListWf l2) := by
  induction l1 with
  | nil => simp [selListWf]
  | cons x xs ih =>
    simp only [List.cons_append]
    rw [show selListWf (x :: (xs ++ l2)) = (selWf x && selListWf (xs ++ l2))
        from rfl,
      show selListWf (x :: xs) = (selWf x && selListWf xs) from rfl,
      ih, Bool.and_assoc]

theorem selWf_withSels {x : Selection} {s : List Selection}
    (hx : selWf x = true) (hs : selListWf s = true) (hne : s ≠ []) :
    selWf (x.withSels (Option.some s)) = true := by
  have hie : s.isEmpty = false := by
    cases s with
    | nil => exact absurd rfl hne
    | cons a b => rfl
  cases x with
  | field a n args sels =>
    unfold selWf at hx ⊢
    unfold Selection.withSels
    simp only [Bool.and_eq_true] at hx ⊢
    exact ⟨hx.1, by simp [hie, hs]⟩
  | inlineFragment t sels =>
    unfold selWf at hx ⊢
    unfold Selection.withSels
    simp only [Bool.and_eq_true] at hx ⊢
    exact ⟨hx.1, by simp [hie, hs]⟩
  | other tag =>
    unfold Selection.withSels
    exact hx

theorem selWf_selSet_some {y : Selection} {s : List Selection}
    (hy : selWf y = true) (hs : y.selSet = Option.some s) :
    selListWf s = true ∧ s ≠ [] := by
  cases y with
  | field a n args sels =>
    unfold Selection.selSet at hs
    subst hs
    unfold selWf at hy
    simp only [Bool.and_eq_true, Bool.not_eq_true'] at hy
    refine ⟨hy.2.2, ?_⟩
    intro h0
    subst h0
    simp at hy
  | inlineFragment t sels =>
    unfold Selection.selSet at hs
    subst hs
    unfold selWf at hy
    simp only [Bool.and_eq_true, Bool.not_eq_true'] at hy
    refine ⟨hy.2.2, ?_⟩
    intro h0
    subst h0
    simp at hy
  | other tag => unfold Selection.selSet at hs; cases hs

theorem mergeChildren_wf {x y : Selection}
    (hx : selWf x = true) (hy : selWf y = true) :
    selWf (mergeChildren x y) = true := by
  unfold mergeChildren
  cases hys : y.selSet with
  | none => exact hx
  | some s =>
    obtain ⟨hsw, hsne⟩ := selWf_selSet_some hy hys
    cases hxs : x.selSet with
    | none =>
      simp only [Option.getD_none, List.nil_append]
      exact selWf_withSels hx hsw hsne
    | some s0 =>
      obtain ⟨hs0w, _⟩ := selWf_selSet_some hx hxs
      simp only [Option.getD_some]
      refine selWf_withSels hx ?_ ?_
      · rw [selListWf_append]
        simp [hs0w, hsw]
      · simp [hsne]

theorem mergeFirst_wf {y : Selection} (hy : selWf y = true) :
    ∀ (acc ys : List Selection), selListWf acc = true →
    mergeFirst y acc = Option.some ys → selListWf ys = true := by
  intro acc
  induction acc with
  | nil => intro ys _ h; unfold mergeFirst at h; cases h
  | cons x xs ih =>
    intro ys hacc h
    unfold selListWf at hacc
    simp only [Bool.and_eq_true] at hacc
    unfold mergeFirst at h
    split at h
    · simp only [Option.some.injEq] at h
      subst h
      unfold selListWf
      simp [mergeChildren_wf hacc.1 hy, hacc.2]
    · cases hmf : mergeFirst y xs with
      | none => rw [hmf] at h; cases h
      | some ys2 =>
        rw [hmf] at h
        dsimp only at h
        simp only [Option.some.injEq] at h
        subst h
        unfold selListWf
        simp [hacc.1, ih ys2 hacc.2 hmf]

theorem mergeFirst_ne_nil {y : Selection} :
    ∀ (acc ys : List Selection), mergeFirst y acc = Option.some ys →
    ys ≠ [] := by
  intro acc
  induction acc with
  | nil => intro ys h; unfold mergeFirst at h; cases h
  | cons x xs ih =>
    intro ys h
    unfold mergeFirst at h
    split at h
    · simp only [Option.some.injEq] at h
      subst h
      simp
    · cases hmf : mergeFirst y xs with
      | none => rw [hmf] at h; cases h
      | some ys2 =>
        rw [hmf] at h
        dsimp only at h
        simp only [Option.some.injEq] at h
        subst h
        simp

theorem insertSel_wf {acc : List Selection} {y : Selection}
    (hacc : selListWf acc = true) (hy : selWf y = true) :
    selListWf (insertSel acc y) = true := by
  unfold insertSel
  cases hmf : mergeFirst y acc with
  | none =>
    simp only [Option.getD_none]
    rw [selListWf_append]
    simp [hacc, selListWf, hy]
  | some ys =>
    simp only [Option.getD_some]
    exact mergeFirst_wf hy acc ys hacc hmf

theorem insertSel_ne_nil (acc : List Selection) (y : Selection) :
    insertSel acc y ≠ [] := by
  unfold insertSel
  cases hmf : mergeFirst y acc with
  | none => simp
  | some ys =>
    simp only [Option.getD_some]
    exact mergeFirst_ne_nil acc ys hmf

theorem zipMergePass_wf : ∀ (sels acc out : List Selection),
    selListWf acc = true → selListWf sels = true →
    zipMergePass acc sels = .ok out → selListWf out = true := by
  intro sels
  induction sels with
  | nil =>
    intro acc out hacc _ h
    simp [zipMergePass] at h
    subst h
    exact hacc
  | cons x xs ih =>
    intro acc out hacc hsels h
    unfold selListWf at hsels
    simp only [Bool.and_eq_true] at hsels
    cases x with
    | other tag => simp [zipMergePass] at h
    | field a n args s =>
      simp only [zipMergePass] at h
      exact ih _ out (insertSel_wf hacc hsels.1) hsels.2 h
    | inlineFragment t s =>
      simp only [zipMergePass] at h
      exact ih _ out (insertSel_wf hacc hsels.1) hsels.2 h

theorem zipMergePass_ne_nil : ∀ (sels acc out : List Selection),
    zipMergePass acc sels = .ok out → (acc ≠ [] ∨ sels ≠ []) → out ≠ [] := by
  intro sels
  induction sels with
  | nil =>
    intro acc out h hne
    simp [zipMergePass] at h
    subst h
    rcases hne with hne | hne
    · exact hne
    · exact absurd rfl hne
  | cons x xs ih =>
    intro acc out h _
    cases x with
    | other tag => simp [zipMergePass] at h
    | field a n args s =>
      simp only [zipMergePass] at h
      exact ih _ out h (Or.inl (insertSel_ne_nil acc _))
    | inlineFragment t s =>
      simp only [zipMergePass] at h
      exact ih _ out h (Or.inl (insertSel_ne_nil acc _))

theorem selListWf_forall2 : ∀ (l l' : List Selection),
    List.Forall₂ (fun x y => zipOne x = .ok y) l l' →
    (∀ x y, x ∈ l → zipOne x = .ok y → selWf x = true → selWf y = true) →
    selListWf l = true → selListWf l' = true := by
  intro l
  induction l with
  | nil =>
    intro l' hf _ _
    cases hf
    rfl
  | cons x xs ih =>
    intro l' hf hstep hw
    cases hf with
    | cons hxy htail =>
      rename_i y ys
      unfold selListWf at hw ⊢
      simp only [Bool.and_eq_true] at hw ⊢
      exact ⟨hstep x y (by simp) hxy hw.1,
        ih ys htail (fun a b ha hb hc => hstep a b (by simp [ha]) hb hc) hw.2⟩

theorem zipSelList_wf : ∀ (n : Nat) (sels out : List Selection),
    Selection.sizeList sels ≤ n → selListWf sels = true →
    zipSelList sels = .ok out →
    selListWf out = true ∧ (sels ≠ [] → out ≠ []) := by
  intro n
  induction n using Nat.strong_induction_on with
  | _ n ih =>
    intro sels out hsz hw h
    cases hmp : zipMergePass [] sels with
    | error e => rw [zipSelList_eq_error hmp] at h; cases h
    | ok merged =>
      rw [zipSelList_eq_ok hmp] at h
      have hmw : selListWf merged = true := zipMergePass_wf sels [] merged rfl hw hmp
      have hmsz : Selection.sizeList merged ≤ Selection.sizeList sels := by
        have := zipMergePass_size hmp
        simp [Selection.sizeList] at this
        omega
      have hf2 := zipEach_forall2 h
      have hstep : ∀ x y, x ∈ merged → zipOne x = .ok y → selWf x = true →
          selWf y = true := by
        intro x y hx hxy hxw
        cases hxs : x.selSet with
        | none =>
          rw [zipOne_of_none hxs] at hxy
          simp only [Except.ok.injEq] at hxy
          subst hxy
          exact hxw
        | some s =>
          rw [zipOne_of_some hxs] at hxy
          cases hzs : zipSelList s with
          | error e => rw [hzs] at hxy; cases hxy
          | ok s' =>
            rw [hzs] at hxy
            dsimp only at hxy
            simp only [Except.ok.injEq] at hxy
            subst hxy
            obtain ⟨hsw, hsne⟩ := selWf_selSet_some hxw hxs
            have hlt : Selection.sizeList s < n := by
              have h1 := Selection.selSet_size hxs
              have h2 := Selection.size_of_mem hx
              omega
            obtain ⟨hs'w, hs'ne⟩ := ih (Selection.sizeList s) hlt s s'
              (Nat.le_refl _) hsw hzs
            exact selWf_withSels hxw hs'w (hs'ne hsne)
      refine ⟨selListWf_forall2 merged out hf2 hstep hmw, ?_⟩
      intro hne
      have hmne : merged ≠ [] := zipMergePass_ne_nil sels [] merged hmp (Or.inr hne)
      intro h0
      subst h0
      cases hf2
      exact hmne rfl

theorem zipGqlDoc_wf {doc doc' : Document}
    (h : zipGqlDoc doc = .ok doc')
    (hwf : ∀ d ∈ doc.definitions, defnWf d = true) : docWf doc' = true := by
  unfold zipGqlDoc at h
  split at h
  · cases h
  · split at h
    · cases h
    · rename_i d ds hdefs
      cases d with
      | fragmentDef nm tc sels => dsimp only at h; cases h
      | operation opType nm sels =>
        dsimp only at h
        cases hz : zipSelList sels with
        | error e => rw [hz] at h; cases h
        | ok sels' =>
          rw [hz] at h
          dsimp only at h
          simp only [Except.ok.injEq] at h
          subst h
          have hd : defnWf (Definition.operation opType nm sels) = true := by
            apply hwf
            rw [hdefs]
            simp
          unfold defnWf at hd
          simp only [Bool.and_eq_true, Bool.not_eq_true'] at hd
          obtain ⟨⟨⟨hop, hnm⟩, hne⟩, hlw⟩ := hd
          have hsne : sels ≠ [] := by
            intro h0
            subst h0
            simp at hne
          obtain ⟨hw', hne'⟩ := zipSelList_wf (Selection.sizeList sels) sels
            sels' (Nat.le_refl _) hlw hz
          have hie : sels'.isEmpty = false := by
            cases hs' : sels' with
            | nil => exact absurd hs' (hne' hsne)
            | cons a b => rfl
          unfold docWf
          unfold defnWf
          simp [hop, hnm, hie, hw']

theorem zipGqlDoc_shape {doc doc' : Document}
    (h : zipGqlDoc doc = .ok doc') :
    ∃ opType nm sels', doc' = ⟨[.operation opType nm sels']⟩ := by
  unfold zipGqlDoc at h
  split at h
  · cases h
  · split at h
    · cases h
    · rename_i d ds hdefs
      cases d with
      | fragmentDef nm tc sels => dsimp only at h; cases h
      | operation opType nm sels =>
        dsimp only at h
        cases hz : zipSelList sels with
        | error e => rw [hz] at h; cases h
        | ok sels' =>
          rw [hz] at h
          dsimp only at h
          simp only [Except.ok.injEq] at h
          subst h
          exact ⟨opType, nm, sels', rfl⟩

/-- C4: `_normalize_query_str` is idempotent — whenever it accepts an
input and produces the normalized string `t`, running it again on `t`
succeeds and returns `t` itself, byte for byte (zipping an
already-zipped selection set is a no-op, and the stripped printing is
stable under re-parse, re-zip and re-print). -/
theorem normalize_idempotent (s t : String)
    (h : normalizeQueryStr s = .ok t) : normalizeQueryStr t = .ok t := by
  unfold normalizeQueryStr at h
  cases hp : parseGql s with
  | error e => rw [hp] at h; cases h
  | ok doc =>
    rw [hp] at h
    dsimp only at h
    cases hz : zipGqlDoc doc with
    | error e => rw [hz] at h; cases h
    | ok doc' =>
      rw [hz] at h
      dsimp only at h
      simp only [Except.ok.injEq] at h
      subst h
      obtain ⟨opType, nm, sels', hshape⟩ := zipGqlDoc_shape hz
      subst hshape
      have hdw : docWf ⟨[Definition.operation opType nm sels']⟩ = true :=
        zipGqlDoc_wf hz (parseGql_wf hp)
      have hdefw : defnWf (Definition.operation opType nm sels') = true := hdw
      unfold normalizeQueryStr
      rw [parseGql_print_rt opType nm sels' hdefw]
      dsimp only
      rw [zipGqlDoc_idem hz]

/-- Witness for C4: normalizing the spec's example query yields
`query WeavePythonCG\x7bruns\x7bname\x7d\x7d`, and normalizing that
output again returns it unchanged. -/
theorem normalize_idempotent_witness :
    normalizeQueryStr "query WeavePythonCG \x7b runs \x7b name \x7d \x7d"
      = .ok "query WeavePythonCG\x7bruns\x7bname\x7d\x7d"
    ∧ normalizeQueryStr "query WeavePythonCG\x7bruns\x7bname\x7d\x7d"
      = .ok "query WeavePythonCG\x7bruns\x7bname\x7d\x7d" := by
  have h : normalizeQueryStr "query WeavePythonCG \x7b runs \x7b name \x7d \x7d"
      = .ok "query WeavePythonCG\x7bruns\x7bname\x7d\x7d" := by
    have hp : parseGql "query WeavePythonCG \x7b runs \x7b name \x7d \x7d"
        = .ok ⟨[Definition.operation "query" (Option.some "WeavePythonCG")
            [Selection.field Option.none "runs" []
              (Option.some [Selection.field Option.none "name" [] Option.none])]]⟩ := rfl
    have hz : zipGqlDoc ⟨[Definition.operation "query" (Option.some "WeavePythonCG")
            [Selection.field Option.none "runs" []
              (Option.some [Selection.field Option.none "name" [] Option.none])]]⟩
        = .ok ⟨[Definition.operation "query" (Option.some "WeavePythonCG")
            [Selection.field Option.none "runs" []
              (Option.some [Selection.field Option.none "name" [] Option.none])]]⟩ := by
      simp [zipGqlDoc, zipSelList, zipMergePass, insertSel, mergeFirst, zipEach,
        zipOne, Selection.selSet, Selection.withSels]
    unfold normalizeQueryStr
    rw [hp]
    dsimp only
    rw [hz]
    rfl
  exact ⟨h, normalize_idempotent _ _ h⟩

end Weave
